import Mathlib

/-!
Shallow embedding of the indexed d-ary priority queue from
`internal/priorityQueue/priorityQueue.go`.

Storage is a dense list of (priority, value) pairs interpreted as a
complete d-ary tree; a value-to-position map is kept in lock-step.
Go `float32` priorities are modelled as `Int` (only order comparisons are
performed on them); the Go `map[T]int` is modelled as `T → Option Nat`.
Go loops are modelled as structurally recursive functions with an explicit
iteration budget (always instantiated large enough; the budget is shown
sufficient in the termination theorem).
-/

structure Pair (T : Type) where
  priority : Int
  value : T
deriving DecidableEq, Repr

structure PriorityQueue (T : Type) where
  pairs : List (Pair T)
  sizeD : Nat
  indexMap : T → Option Nat

/-- Go map assignment `m[k] = i`. -/
def mapInsert {T : Type} [DecidableEq T] (m : T → Option Nat) (k : T) (i : Nat) :
    T → Option Nat :=
  fun v => if v = k then some i else m v

/-- Go map deletion `delete(m, k)`. -/
def mapDelete {T : Type} [DecidableEq T] (m : T → Option Nat) (k : T) :
    T → Option Nat :=
  fun v => if v = k then none else m v

inductive QueueError where
  | elementNotFound
  | queueIsEmpty
deriving DecidableEq, Repr

instance {ε α : Type} [DecidableEq ε] [DecidableEq α] : DecidableEq (Except ε α) :=
  fun x y =>
    match x, y with
    | .ok a, .ok b =>
      if h : a = b then isTrue (by rw [h]) else isFalse (fun hc => by cases hc; exact h rfl)
    | .error a, .error b =>
      if h : a = b then isTrue (by rw [h]) else isFalse (fun hc => by cases hc; exact h rfl)
    | .ok _, .error _ => isFalse (fun hc => by cases hc)
    | .error _, .ok _ => isFalse (fun hc => by cases hc)

/-- `NewPriorityQueue`: branching factor below 2 is silently clamped to 2. -/
def NewPriorityQueue (T : Type) (d : Int) (capacity : Int) : PriorityQueue T :=
  { pairs := [],
    sizeD := (if d < 2 then 2 else d).toNat,
    indexMap := fun _ => none }

namespace PriorityQueue

variable {T : Type} [DecidableEq T]

def isEmpty (q : PriorityQueue T) : Bool :=
  q.pairs.length == 0

/-- `(parentIndex - 1) / q.sizeD` (only ever called with a positive index). -/
def getParentIndex (q : PriorityQueue T) (index : Nat) : Nat :=
  (index - 1) / q.sizeD

/-- `(len(q.pairs)-2)/q.sizeD + 1`, with Go (truncated) integer division. -/
def firstLeafIndex (q : PriorityQueue T) : Int :=
  Int.tdiv ((q.pairs.length : Int) - 2) (q.sizeD : Int) + 1

/-- The scanning loop of `highestPriorityChild`: keep the running best,
replacing it only on strictly greater priority; `n` counts the remaining
indices to scan starting at `i`. -/
def hpcScan (pairs : List (Pair T)) : Nat → Pair T → Nat → Nat → Pair T × Nat
  | 0, best, bestIdx, _ => (best, bestIdx)
  | n + 1, best, bestIdx, i =>
    match pairs[i]? with
    | some p =>
      if best.priority < p.priority then hpcScan pairs n p i (i + 1)
      else hpcScan pairs n best bestIdx (i + 1)
    | none => hpcScan pairs n best bestIdx (i + 1)

/-- `highestPriorityChild`; the Go sentinel index `-1` becomes `none`. -/
def highestPriorityChild (q : PriorityQueue T) (currentIndex : Nat) :
    Option (Pair T × Nat) :=
  let start := currentIndex * q.sizeD + 1
  if h : start < q.pairs.length then
    let endIdx := min (start + q.sizeD - 1) (q.pairs.length - 1)
    some (hpcScan q.pairs (endIdx - start) (q.pairs.get ⟨start, h⟩) start (start + 1))
  else
    none

/-- The loop body of `pushDownIndex`; `fuel` bounds the number of
iterations and is always passed as `q.pairs.length + 1`, which is enough
(see the termination theorem). -/
def pushDownAux : Nat → PriorityQueue T → Nat → PriorityQueue T
  | 0, q, _ => q
  | fuel + 1, q, currentIndex =>
    if (currentIndex : Int) < q.firstLeafIndex then
      match q.highestPriorityChild currentIndex with
      | none => q
      | some (_best, childIndex) =>
        match q.pairs[childIndex]?, q.pairs[currentIndex]? with
        | some child, some cur =>
          if cur.priority < child.priority then
            pushDownAux fuel
              { q with
                pairs := (q.pairs.set currentIndex child).set childIndex cur,
                indexMap :=
                  mapInsert (mapInsert q.indexMap child.value currentIndex)
                    cur.value childIndex }
              childIndex
          else q
        | _, _ => q
    else q

def pushDownIndex (q : PriorityQueue T) (currentIndex : Nat) : PriorityQueue T :=
  pushDownAux (q.pairs.length + 1) q currentIndex

def pushDown (q : PriorityQueue T) : PriorityQueue T :=
  q.pushDownIndex 0

/-- The loop of `bubbleUpIndex`, carrying the saved `current` pair.  The
index strictly decreases at every iteration, so a budget equal to the
starting index is always sufficient; exhausted fuel coincides with the
`index = 0` exit. -/
def bubbleUpAux (d : Nat) (current : Pair T) :
    Nat → List (Pair T) → (T → Option Nat) → Nat → List (Pair T) × (T → Option Nat)
  | 0, pairs, imap, index => (pairs.set index current, mapInsert imap current.value index)
  | fuel + 1, pairs, imap, index =>
    if 0 < index then
      let parentIndex := (index - 1) / d
      match pairs[parentIndex]? with
      | some parent =>
        if parent.priority < current.priority then
          bubbleUpAux d current fuel (pairs.set index parent)
            (mapInsert imap parent.value index) parentIndex
        else (pairs.set index current, mapInsert imap current.value index)
      | none => (pairs.set index current, mapInsert imap current.value index)
    else (pairs.set index current, mapInsert imap current.value index)

def bubbleUpIndex (q : PriorityQueue T) (index : Nat) : PriorityQueue T :=
  match q.pairs[index]? with
  | some current =>
    let r := bubbleUpAux q.sizeD current index q.pairs q.indexMap index
    { q with pairs := r.1, indexMap := r.2 }
  | none => q

def bubbleUp (q : PriorityQueue T) : PriorityQueue T :=
  q.bubbleUpIndex (q.pairs.length - 1)

/-- `Insert`: append, record the position, bubble up. -/
def Insert (q : PriorityQueue T) (element : T) (priority : Int) : PriorityQueue T :=
  let pairs1 := q.pairs ++ [⟨priority, element⟩]
  bubbleUp
    { q with
      pairs := pairs1,
      indexMap := mapInsert q.indexMap element (pairs1.length - 1) }

/-- `Peek`: the root entry, or `ErrQueueIsEmpty`. -/
def Peek (q : PriorityQueue T) : Except QueueError (Pair T) :=
  match q.pairs.head? with
  | none => .error .queueIsEmpty
  | some p => .ok p

/-- `Top`: extract the maximum.  Returned as (new state, result); the
error branch leaves the state untouched, as the Go method returns before
mutating. -/
def Top (q : PriorityQueue T) : PriorityQueue T × Except QueueError (Pair T) :=
  match q.pairs.getLast? with
  | none => (q, .error .queueIsEmpty)
  | some p =>
    let q1 : PriorityQueue T :=
      { q with pairs := q.pairs.dropLast, indexMap := mapDelete q.indexMap p.value }
    match q1.pairs.head? with
    | none => (q1, .ok p)
    | some element =>
      let q2 : PriorityQueue T :=
        { q1 with pairs := q1.pairs.set 0 p, indexMap := mapInsert q1.indexMap p.value 0 }
      let q3 := q2.pushDown
      ({ q3 with indexMap := mapDelete q3.indexMap element.value }, .ok element)

/-- `Remove`: swap-remove with the last entry, then rebalance by
comparing the relocated priority against the removed one. -/
def Remove (q : PriorityQueue T) (element : T) : PriorityQueue T × Option QueueError :=
  match q.indexMap element with
  | none => (q, some .elementNotFound)
  | some index =>
    let lastIndex := q.pairs.length - 1
    if index = lastIndex then
      ({ q with pairs := q.pairs.take lastIndex, indexMap := mapDelete q.indexMap element },
        none)
    else
      match q.pairs[index]?, q.pairs[lastIndex]? with
      | some target, some last =>
        let q1 : PriorityQueue T :=
          { q with
            pairs := (q.pairs.set index last).take lastIndex,
            indexMap := mapDelete (mapInsert q.indexMap last.value index) target.value }
        if last.priority < target.priority then (q1.bubbleUpIndex index, none)
        else if target.priority < last.priority then (q1.pushDownIndex index, none)
        else (q1, none)
      | _, _ => (q, none)

/-- `Update`: overwrite the priority, then rebalance (the code bubbles up
on a decrease and pushes down on an increase). -/
def Update (q : PriorityQueue T) (element : T) (newPriority : Int) :
    PriorityQueue T × Option QueueError :=
  match q.indexMap element with
  | none => (q, some .elementNotFound)
  | some index =>
    match q.pairs[index]? with
    | none => (q, none)
    | some pr =>
      let oldPriority := pr.priority
      let q1 : PriorityQueue T :=
        { q with pairs := q.pairs.set index ⟨newPriority, pr.value⟩ }
      if newPriority < oldPriority then (q1.bubbleUpIndex index, none)
      else if oldPriority < newPriority then (q1.pushDownIndex index, none)
      else (q1, none)

end PriorityQueue

/-! Operation sequences over a queue. -/

inductive Op (T : Type) where
  | insert (element : T) (priority : Int)
  | remove (element : T)
  | update (element : T) (priority : Int)
  | top
deriving DecidableEq, Repr

def applyOp {T : Type} [DecidableEq T] (q : PriorityQueue T) : Op T → PriorityQueue T
  | .insert v p => q.Insert v p
  | .remove v => (q.Remove v).1
  | .update v p => (q.Update v p).1
  | .top => q.Top.1

def runOps {T : Type} [DecidableEq T] (q : PriorityQueue T) : List (Op T) → PriorityQueue T
  | [] => q
  | op :: rest => runOps (applyOp q op) rest

/-- The no-duplicate precondition of a single call: an `insert` may only
add a value that the queue does not already hold. -/
def opPreOK {T : Type} [DecidableEq T] (q : PriorityQueue T) : Op T → Bool
  | .insert v _ => (q.indexMap v).isNone
  | _ => true

/-- Every `insert` in the sequence is performed on a queue that does not
already hold the inserted value (the no-duplicate precondition). -/
def insertPreOK {T : Type} [DecidableEq T] (q : PriorityQueue T) : List (Op T) → Bool
  | [] => true
  | op :: rest => opPreOK q op && insertPreOK (applyOp q op) rest

/-- Repeatedly call `Top` until it fails, collecting the returned pairs;
`q.pairs.length` rounds always suffice to drain the queue. -/
def drainAux {T : Type} [DecidableEq T] : Nat → PriorityQueue T → List (Pair T)
  | 0, _ => []
  | fuel + 1, q =>
    match q.Top with
    | (_, .error _) => []
    | (q2, .ok p) => p :: drainAux fuel q2

def topSequence {T : Type} [DecidableEq T] (q : PriorityQueue T) : List (Pair T) :=
  drainAux q.pairs.length q

/-! Invariants. -/

theorem parent_div_lt {j n d : Nat} (h : j < n) : (j - 1) / d < n :=
  lt_of_le_of_lt (le_trans (Nat.div_le_self _ _) (Nat.pred_le _)) h

theorem parent_div_lt_self {j d : Nat} (hj : 0 < j) : (j - 1) / d < j :=
  lt_of_le_of_lt (Nat.div_le_self _ _) (by omega)

/-- Max-heap invariant: every non-root entry is at most its parent. -/
def IsHeap {T : Type} (d : Nat) (pairs : List (Pair T)) : Prop :=
  ∀ j (h : j < pairs.length), 0 < j →
    (pairs.get ⟨j, h⟩).priority ≤ (pairs.get ⟨(j - 1) / d, parent_div_lt h⟩).priority

instance {T : Type} (d : Nat) (pairs : List (Pair T)) : Decidable (IsHeap d pairs) :=
  Nat.decidableBallLT _ _

/-- Consistency of a position map with storage, allowing one optional
stale key `s` (present in the map but pointing nowhere): every stored
value maps to its position and is distinct from `s`, and every mapped
value other than `s` is stored at the mapped position. -/
def IndexOK {T : Type} (pairs : List (Pair T)) (imap : T → Option Nat) (s : Option T) :
    Prop :=
  (∀ j pj, pairs[j]? = some pj →
      some pj.value ≠ s ∧ imap pj.value = some j) ∧
  (∀ v j, imap v = some j → some v ≠ s →
      ∃ pj, pairs[j]? = some pj ∧ pj.value = v)

/-- The index-consistency invariant of the queue: no stale and no missing
entries. -/
def IndexInv {T : Type} (q : PriorityQueue T) : Prop :=
  IndexOK q.pairs q.indexMap none

/-! Structural lemmas: the rebalancing loops preserve the length of the
storage sequence and the branching factor. -/

namespace PriorityQueue

variable {T : Type} [DecidableEq T]

theorem pushDownAux_pairs_length :
    ∀ (fuel : Nat) (q : PriorityQueue T) (i : Nat),
      (pushDownAux fuel q i).pairs.length = q.pairs.length
  | 0, _, _ => rfl
  | fuel + 1, q, i => by
    simp only [pushDownAux]
    repeat' split
    all_goals simp [pushDownAux_pairs_length fuel, List.length_set]

theorem pushDownAux_sizeD :
    ∀ (fuel : Nat) (q : PriorityQueue T) (i : Nat),
      (pushDownAux fuel q i).sizeD = q.sizeD
  | 0, _, _ => rfl
  | fuel + 1, q, i => by
    simp only [pushDownAux]
    repeat' split
    all_goals simp [pushDownAux_sizeD fuel]

theorem bubbleUpAux_fst_length (d : Nat) (current : Pair T) :
    ∀ (fuel : Nat) (pairs : List (Pair T)) (imap : T → Option Nat) (index : Nat),
      (bubbleUpAux d current fuel pairs imap index).1.length = pairs.length
  | 0, _, _, _ => by simp [bubbleUpAux, List.length_set]
  | fuel + 1, pairs, imap, index => by
    simp only [bubbleUpAux]
    repeat' split
    all_goals simp [bubbleUpAux_fst_length d current fuel, List.length_set]

theorem bubbleUpIndex_pairs_length (q : PriorityQueue T) (i : Nat) :
    (q.bubbleUpIndex i).pairs.length = q.pairs.length := by
  unfold bubbleUpIndex
  split
  · exact bubbleUpAux_fst_length _ _ _ _ _ _
  · rfl

theorem bubbleUpIndex_sizeD (q : PriorityQueue T) (i : Nat) :
    (q.bubbleUpIndex i).sizeD = q.sizeD := by
  unfold bubbleUpIndex
  split <;> rfl

theorem pushDownIndex_pairs_length (q : PriorityQueue T) (i : Nat) :
    (q.pushDownIndex i).pairs.length = q.pairs.length :=
  pushDownAux_pairs_length _ _ _

theorem pushDownIndex_sizeD (q : PriorityQueue T) (i : Nat) :
    (q.pushDownIndex i).sizeD = q.sizeD :=
  pushDownAux_sizeD _ _ _

theorem Insert_pairs_length (q : PriorityQueue T) (v : T) (p : Int) :
    (q.Insert v p).pairs.length = q.pairs.length + 1 := by
  unfold Insert bubbleUp
  rw [bubbleUpIndex_pairs_length]
  simp

theorem Insert_sizeD (q : PriorityQueue T) (v : T) (p : Int) :
    (q.Insert v p).sizeD = q.sizeD := by
  unfold Insert bubbleUp
  rw [bubbleUpIndex_sizeD]

theorem Top_pairs_length (q : PriorityQueue T) (h : q.pairs ≠ []) :
    q.Top.1.pairs.length = q.pairs.length - 1 := by
  unfold Top
  cases hg : q.pairs.getLast? with
  | none => exact absurd (List.getLast?_eq_none_iff.mp hg) h
  | some p =>
    simp only
    split
    · simp [List.length_dropLast]
    · simp [pushDown, pushDownIndex_pairs_length, List.length_set, List.length_dropLast]

theorem Top_sizeD (q : PriorityQueue T) : q.Top.1.sizeD = q.sizeD := by
  unfold Top
  cases hg : q.pairs.getLast? with
  | none => rfl
  | some p =>
    simp only
    split
    · rfl
    · simp [pushDown, pushDownIndex_sizeD]

theorem Remove_sizeD (q : PriorityQueue T) (v : T) : (q.Remove v).1.sizeD = q.sizeD := by
  unfold Remove
  dsimp only
  repeat' split
  all_goals simp [bubbleUpIndex_sizeD, pushDownIndex_sizeD]

theorem Update_sizeD (q : PriorityQueue T) (v : T) (p : Int) :
    (q.Update v p).1.sizeD = q.sizeD := by
  unfold Update
  dsimp only
  repeat' split
  all_goals simp [bubbleUpIndex_sizeD, pushDownIndex_sizeD]

theorem applyOp_sizeD (q : PriorityQueue T) (op : Op T) :
    (applyOp q op).sizeD = q.sizeD := by
  cases op with
  | insert v p => exact Insert_sizeD q v p
  | remove v => exact Remove_sizeD q v
  | update v p => exact Update_sizeD q v p
  | top => exact Top_sizeD q

theorem runOps_sizeD (q : PriorityQueue T) (ops : List (Op T)) :
    (runOps q ops).sizeD = q.sizeD := by
  induction ops generalizing q with
  | nil => rfl
  | cons op rest ih => rw [runOps, ih, applyOp_sizeD]

/-- Characterization of the position of `j` in the child range of `i`:
`j`'s parent is `i` exactly when `j` lies in `[i*d+1, i*d+d]`. -/
theorem childRange_iff {d : Nat} (hd : 0 < d) (i j : Nat) (hj : 0 < j) :
    (j - 1) / d = i ↔ (i * d + 1 ≤ j ∧ j ≤ i * d + d) := by
  have hexp : (i + 1) * d = i * d + d := by ring
  constructor
  · intro h
    have h1 : i * d ≤ j - 1 := by
      have := Nat.div_mul_le_self (j - 1) d
      rw [h] at this
      exact this
    have h2 : j - 1 < (i + 1) * d := by
      refine (Nat.div_lt_iff_lt_mul hd).mp ?_
      rw [h]
      exact Nat.lt_succ_self i
    omega
  · intro h
    exact Nat.div_eq_of_lt_le (by omega) (by omega)

theorem lt_length_of_getElem?_some {α : Type} {l : List α} {j : Nat} {a : α}
    (h : l[j]? = some a) : j < l.length := by
  by_contra hc
  rw [List.getElem?_eq_none (by omega)] at h
  cases h

/-- What the scanning loop guarantees, relative to its starting
accumulator `(best, bestIdx)` and scan window `[i, i+n)`. -/
def ScanOK (pairs : List (Pair T)) (best : Pair T) (bestIdx i n : Nat)
    (r : Pair T × Nat) : Prop :=
  pairs[r.2]? = some r.1 ∧
  best.priority ≤ r.1.priority ∧
  (r.2 = bestIdx ∨ (i ≤ r.2 ∧ r.2 < i + n ∧ best.priority < r.1.priority)) ∧
  (∀ k p, i ≤ k → k < i + n → pairs[k]? = some p → p.priority ≤ r.1.priority) ∧
  (∀ k p, i ≤ k → k < i + n → k < r.2 → pairs[k]? = some p →
    p.priority < r.1.priority)

theorem hpcScan_spec (pairs : List (Pair T)) :
    ∀ (n : Nat) (best : Pair T) (bestIdx i : Nat),
      pairs[bestIdx]? = some best → bestIdx < i →
      ScanOK pairs best bestIdx i n (hpcScan pairs n best bestIdx i)
  | 0, best, bestIdx, i, hb, _hlt => by
    refine ⟨hb, le_refl _, Or.inl rfl, ?_, ?_⟩ <;>
      · intro k p hk1 hk2
        omega
  | n + 1, best, bestIdx, i, hb, hlt => by
    cases hi : pairs[i]? with
    | none =>
      have IH := hpcScan_spec pairs n best bestIdx (i + 1) hb (by omega)
      obtain ⟨s1, s2, s3, s4, s5⟩ := IH
      simp only [hpcScan, hi]
      refine ⟨s1, s2, ?_, ?_, ?_⟩
      · rcases s3 with h | h
        · exact Or.inl h
        · exact Or.inr ⟨by omega, by omega, h.2.2⟩
      · intro k p hk1 hk2 hkp
        rcases Nat.eq_or_lt_of_le hk1 with h | h
        · rw [← h, hi] at hkp
          cases hkp
        · exact s4 k p h (by omega) hkp
      · intro k p hk1 hk2 hk3 hkp
        rcases Nat.eq_or_lt_of_le hk1 with h | h
        · rw [← h, hi] at hkp
          cases hkp
        · exact s5 k p h (by omega) hk3 hkp
    | some p =>
      by_cases hcmp : best.priority < p.priority
      · have IH := hpcScan_spec pairs n p i (i + 1) hi (by omega)
        obtain ⟨s1, s2, s3, s4, s5⟩ := IH
        simp only [hpcScan, hi, if_pos hcmp]
        refine ⟨s1, le_of_lt (lt_of_lt_of_le hcmp s2), ?_, ?_, ?_⟩
        · rcases s3 with h | h
          · exact Or.inr ⟨by omega, by omega, lt_of_lt_of_le hcmp s2⟩
          · exact Or.inr ⟨by omega, by omega, lt_of_lt_of_le hcmp s2⟩
        · intro k q hk1 hk2 hkp
          rcases Nat.eq_or_lt_of_le hk1 with h | h
          · rw [← h, hi] at hkp
            cases hkp
            exact s2
          · exact s4 k q h (by omega) hkp
        · intro k q hk1 hk2 hk3 hkp
          rcases Nat.eq_or_lt_of_le hk1 with h | h
          · rw [← h, hi] at hkp
            cases hkp
            rcases s3 with h3 | h3
            · omega
            · exact h3.2.2
          · rcases s3 with h3 | h3
            · omega
            · exact s5 k q h (by omega) hk3 hkp
      · have IH := hpcScan_spec pairs n best bestIdx (i + 1) hb (by omega)
        obtain ⟨s1, s2, s3, s4, s5⟩ := IH
        simp only [hpcScan, hi, if_neg hcmp]
        refine ⟨s1, s2, ?_, ?_, ?_⟩
        · rcases s3 with h | h
          · exact Or.inl h
          · exact Or.inr ⟨by omega, by omega, h.2.2⟩
        · intro k q hk1 hk2 hkp
          rcases Nat.eq_or_lt_of_le hk1 with h | h
          · rw [← h, hi] at hkp
            cases hkp
            exact le_trans (not_lt.mp hcmp) s2
          · exact s4 k q h (by omega) hkp
        · intro k q hk1 hk2 hk3 hkp
          rcases Nat.eq_or_lt_of_le hk1 with h | h
          · rw [← h, hi] at hkp
            cases hkp
            rcases s3 with h3 | h3
            · omega
            · exact lt_of_le_of_lt (not_lt.mp hcmp) h3.2.2
          · exact s5 k q h (by omega) hk3 hkp

theorem highestPriorityChild_eq_none_iff (q : PriorityQueue T) (i : Nat) :
    q.highestPriorityChild i = none ↔ q.pairs.length ≤ i * q.sizeD + 1 := by
  unfold highestPriorityChild
  dsimp only
  split
  · rename_i h
    simp only [reduceCtorEq, false_iff]
    omega
  · rename_i h
    simp only [true_iff]
    omega

theorem highestPriorityChild_spec (q : PriorityQueue T) (i : Nat) (hd : 1 ≤ q.sizeD)
    {best : Pair T} {c : Nat} (h : q.highestPriorityChild i = some (best, c)) :
    q.pairs[c]? = some best ∧
    i * q.sizeD + 1 ≤ c ∧ c ≤ i * q.sizeD + q.sizeD ∧ c < q.pairs.length ∧
    (∀ j p, i * q.sizeD + 1 ≤ j → j ≤ i * q.sizeD + q.sizeD → q.pairs[j]? = some p →
      p.priority ≤ best.priority) ∧
    (∀ j p, i * q.sizeD + 1 ≤ j → j < c → q.pairs[j]? = some p →
      p.priority < best.priority) := by
  unfold highestPriorityChild at h
  dsimp only at h
  split at h
  case isFalse => cases h
  case isTrue hstart =>
    set start := i * q.sizeD + 1 with hstartdef
    set endIdx := min (start + q.sizeD - 1) (q.pairs.length - 1) with hend
    have hb : q.pairs[start]? = some (q.pairs.get ⟨start, hstart⟩) := by
      rw [List.get_eq_getElem, List.getElem?_eq_getElem hstart]
    have IH := hpcScan_spec q.pairs (endIdx - start) (q.pairs.get ⟨start, hstart⟩)
      start (start + 1) hb (Nat.lt_succ_self _)
    obtain ⟨s1, s2, s3, s4, s5⟩ := IH
    have hr : (best, c) = hpcScan q.pairs (endIdx - start)
        (q.pairs.get ⟨start, hstart⟩) start (start + 1) := by
      injection h with h2
      exact h2.symm
    have hbest : (hpcScan q.pairs (endIdx - start)
        (q.pairs.get ⟨start, hstart⟩) start (start + 1)).1 = best := by rw [← hr]
    have hc : (hpcScan q.pairs (endIdx - start)
        (q.pairs.get ⟨start, hstart⟩) start (start + 1)).2 = c := by rw [← hr]
    rw [hbest, hc] at s1
    rw [hbest] at s2 s4
    rw [hbest, hc] at s3 s5
    have hse : start ≤ endIdx := by omega
    have hcbound : start ≤ c ∧ c ≤ endIdx := by
      rcases s3 with h3 | h3
      · omega
      · omega
    refine ⟨s1, by omega, by omega, by omega, ?_, ?_⟩
    · intro j p hj1 hj2 hjp
      have hjlen : j < q.pairs.length := lt_length_of_getElem?_some hjp
      rcases Nat.eq_or_lt_of_le hj1 with hj | hj
      · rw [← hj, hb] at hjp
        injection hjp with hjp
        rw [hjp] at s2
        exact s2
      · exact s4 j p hj (by omega) hjp
    · intro j p hj1 hj2 hjp
      rcases Nat.eq_or_lt_of_le hj1 with hj | hj
      · rw [← hj, hb] at hjp
        injection hjp with hjp
        rcases s3 with h3 | h3
        · omega
        · rw [hjp] at h3
          exact h3.2.2
      · exact s5 j p hj (by omega) hj2 hjp

/-- With a positive branching factor, the selected child is strictly
below its parent position. -/
theorem highestPriorityChild_gt (q : PriorityQueue T) (i : Nat) (hd : 1 ≤ q.sizeD)
    {best : Pair T} {c : Nat} (h : q.highestPriorityChild i = some (best, c)) :
    i < c := by
  have hs := highestPriorityChild_spec q i hd h
  have : i * q.sizeD + 1 ≤ c := hs.2.1
  have : i * 1 ≤ i * q.sizeD := Nat.mul_le_mul_left i hd
  omega

theorem getElem?_eq_some_get {α : Type} (l : List α) (j : Nat) (h : j < l.length) :
    l[j]? = some (l.get ⟨j, h⟩) := by
  rw [List.get_eq_getElem, List.getElem?_eq_getElem]

/-- Priority at position `a` is at most the priority at position `b`
(vacuously true when either position is out of range). -/
abbrev PLE (pairs : List (Pair T)) (a b : Nat) : Prop :=
  ∀ pa pb, pairs[a]? = some pa → pairs[b]? = some pb → pa.priority ≤ pb.priority

theorem isHeap_of_forall {d : Nat} {pairs : List (Pair T)}
    (h : ∀ j, 0 < j → PLE pairs j ((j - 1) / d)) : IsHeap d pairs := by
  intro j hj h0
  exact h j h0 _ _ (getElem?_eq_some_get _ _ hj) (getElem?_eq_some_get _ _ _)

theorem isHeap_ple {d : Nat} {pairs : List (Pair T)} (h : IsHeap d pairs)
    (j : Nat) (hj : 0 < j) : PLE pairs j ((j - 1) / d) := by
  intro pa pb geta getb
  have hlen := lt_length_of_getElem?_some geta
  rw [getElem?_eq_some_get _ _ hlen] at geta
  rw [getElem?_eq_some_get _ _ (parent_div_lt hlen)] at getb
  injection geta with geta
  injection getb with getb
  rw [← geta, ← getb]
  exact h j hlen hj

/-- The heap property everywhere except that the entries in the child
range of `i` need not be below the entry at `i`; they are still below
`i`'s parent (which makes a downward swap through `i` safe). -/
def HeapExceptDown (d : Nat) (pairs : List (Pair T)) (i : Nat) : Prop :=
  (∀ j, 0 < j → (j - 1) / d ≠ i → PLE pairs j ((j - 1) / d)) ∧
  (0 < i → ∀ j, 0 < j → (j - 1) / d = i → PLE pairs j ((i - 1) / d))

/-- Positions at or past `firstLeafIndex` have no children. -/
theorem no_child_of_not_lt_firstLeaf (q : PriorityQueue T) (i : Nat) (hd : 1 ≤ q.sizeD)
    (h : ¬ ((i : ℤ) < q.firstLeafIndex)) : q.pairs.length ≤ i * q.sizeD + 1 := by
  unfold firstLeafIndex at h
  by_cases h2 : 2 ≤ q.pairs.length
  · have hcast : ((q.pairs.length : ℤ) - 2) = (((q.pairs.length - 2 : Nat)) : ℤ) := by omega
    rw [hcast] at h
    have htd : Int.tdiv ((q.pairs.length - 2 : Nat) : ℤ) (q.sizeD : ℤ)
        = (((q.pairs.length - 2) / q.sizeD : Nat) : ℤ) := by
      exact_mod_cast rfl
    rw [htd] at h
    have hq : (q.pairs.length - 2) / q.sizeD + 1 ≤ i := by omega
    have hlt : q.pairs.length - 2 < ((q.pairs.length - 2) / q.sizeD + 1) * q.sizeD :=
      (Nat.div_lt_iff_lt_mul hd).mp (Nat.lt_succ_self _)
    have hmono : ((q.pairs.length - 2) / q.sizeD + 1) * q.sizeD ≤ i * q.sizeD :=
      Nat.mul_le_mul_right _ hq
    have hexp : ((q.pairs.length - 2) / q.sizeD + 1) * q.sizeD
        = ((q.pairs.length - 2) / q.sizeD) * q.sizeD + q.sizeD := by ring
    omega
  · omega

/-- `pushDownAux` rebuilds a full heap from a state whose only possible
violations sit between `i` and its children. -/
theorem pushDownAux_isHeap :
    ∀ (fuel : Nat) (q : PriorityQueue T) (i : Nat),
      1 ≤ q.sizeD →
      q.pairs.length - i < fuel →
      HeapExceptDown q.sizeD q.pairs i →
      IsHeap q.sizeD (pushDownAux fuel q i).pairs
  | 0, _, _, _, hfuel, _ => absurd hfuel (by omega)
  | fuel + 1, q, i, hd, hfuel, hhe => by
    obtain ⟨hE, hG⟩ := hhe
    simp only [pushDownAux]
    split
    case isFalse hcond =>
      have hnc := no_child_of_not_lt_firstLeaf q i hd hcond
      refine isHeap_of_forall ?_
      intro j hj
      by_cases hpar : (j - 1) / q.sizeD = i
      · intro pa pb geta getb
        have hjlen := lt_length_of_getElem?_some geta
        have hr := (childRange_iff hd i j hj).mp hpar
        omega
      · exact hE j hj hpar
    case isTrue hcond =>
      split
      case h_1 hpc =>
        have hnc : q.pairs.length ≤ i * q.sizeD + 1 :=
          (highestPriorityChild_eq_none_iff q i).mp hpc
        refine isHeap_of_forall ?_
        intro j hj
        by_cases hpar : (j - 1) / q.sizeD = i
        · intro pa pb geta getb
          have hjlen := lt_length_of_getElem?_some geta
          have hr := (childRange_iff hd i j hj).mp hpar
          omega
        · exact hE j hj hpar
      case h_2 best c hpc =>
        obtain ⟨hbest, hc1, hc2, hclen, hmax, hfirst⟩ :=
          highestPriorityChild_spec q i hd hpc
        have hic : i < c := highestPriorityChild_gt q i hd hpc
        have hilen : i < q.pairs.length := lt_trans hic hclen
        have hparc : (c - 1) / q.sizeD = i :=
          (childRange_iff hd i c (by omega)).mpr ⟨hc1, hc2⟩
        split
        case h_1 child cur hchild hcur =>
          rw [hbest] at hchild
          injection hchild with hchild
          subst hchild
          have hcurget : cur = q.pairs.get ⟨i, hilen⟩ := by
            rw [getElem?_eq_some_get q.pairs i hilen] at hcur
            injection hcur with hcur
            exact hcur.symm
          split
          case isTrue hcmp =>
            have hlen2 : c < (q.pairs.set i best).length := by
              simp only [List.length_set]
              exact hclen
            have hk_c : ((q.pairs.set i best).set c cur)[c]? = some cur :=
              List.getElem?_set_self hlen2
            have hk_i : ((q.pairs.set i best).set c cur)[i]? = some best := by
              rw [List.getElem?_set_ne (Ne.symm (Nat.ne_of_lt hic)),
                List.getElem?_set_self hilen]
            have hk_other : ∀ k, k ≠ i → k ≠ c →
                ((q.pairs.set i best).set c cur)[k]? = q.pairs[k]? := by
              intro k hki hkc
              rw [List.getElem?_set_ne (Ne.symm hkc), List.getElem?_set_ne (Ne.symm hki)]
            have hstep : HeapExceptDown q.sizeD ((q.pairs.set i best).set c cur) c := by
              constructor
              · -- heap edges away from the children of c
                intro j hj hpar pa pb geta getb
                by_cases hji : j = i
                · rw [hji, hk_i] at geta
                  injection geta with geta
                  subst geta
                  have hplt : (i - 1) / q.sizeD < i := parent_div_lt_self (by omega)
                  rw [hji] at getb
                  rw [hk_other _ (by omega) (by omega)] at getb
                  exact hG (by omega) c (by omega) hparc best pb hbest getb
                · by_cases hjc : j = c
                  · rw [hjc, hk_c] at geta
                    injection geta with geta
                    subst geta
                    rw [hjc, hparc, hk_i] at getb
                    injection getb with getb
                    subst getb
                    exact le_of_lt hcmp
                  · rw [hk_other _ hji hjc] at geta
                    by_cases hpi : (j - 1) / q.sizeD = i
                    · rw [hpi, hk_i] at getb
                      injection getb with getb
                      subst getb
                      have hr := (childRange_iff hd i j hj).mp hpi
                      exact hmax j pa hr.1 hr.2 geta
                    · rw [hk_other _ hpi hpar] at getb
                      exact hE j hj hpi pa pb geta getb
              · -- the children of c stay below c's former parent i
                intro hc0 j hj hpar pa pb geta getb
                rw [hparc, hk_i] at getb
                injection getb with getb
                subst getb
                have hr := (childRange_iff hd c j hj).mp hpar
                have hcd : c * 1 ≤ c * q.sizeD := Nat.mul_le_mul_left c hd
                have hji : j ≠ i := by omega
                have hjc : j ≠ c := by omega
                rw [hk_other _ hji hjc] at geta
                have hparne : (j - 1) / q.sizeD ≠ i := by omega
                exact hE j hj hparne pa best geta (by rw [hpar]; exact hbest)
            refine pushDownAux_isHeap fuel _ c hd ?_ hstep
            simp only [List.length_set]
            omega
          case isFalse hcmp =>
            refine isHeap_of_forall ?_
            intro j hj pa pb geta getb
            by_cases hpi : (j - 1) / q.sizeD = i
            · rw [hpi, hcur] at getb
              injection getb with getb
              subst getb
              have hr := (childRange_iff hd i j hj).mp hpi
              exact le_trans (hmax j pa hr.1 hr.2 geta) (not_lt.mp hcmp)
            · exact hE j hj hpi pa pb geta getb
        case h_2 hfall =>
          exact (hfall best (q.pairs.get ⟨i, hilen⟩) hbest
            (getElem?_eq_some_get q.pairs i hilen)).elim

/-- The heap property everywhere except that the entry at `i` may exceed
its parent; the children of `i` are still below `i`'s parent (which makes
an upward swap through `i` safe). -/
def HeapExceptUp (d : Nat) (pairs : List (Pair T)) (i : Nat) : Prop :=
  (∀ j, 0 < j → j ≠ i → PLE pairs j ((j - 1) / d)) ∧
  (0 < i → ∀ j, 0 < j → (j - 1) / d = i → PLE pairs j ((i - 1) / d))

theorem heapExceptUp_zero {d : Nat} {pairs : List (Pair T)} {i : Nat}
    (h : HeapExceptUp d pairs i) (hi : i = 0) : IsHeap d pairs := by
  refine isHeap_of_forall ?_
  intro j hj
  exact h.1 j hj (by omega)

/-- `bubbleUpAux` rebuilds a full heap from a state whose only possible
violation sits between `index` and its parent. -/
theorem bubbleUpAux_isHeap {d : Nat} :
    ∀ (fuel : Nat) (pairs : List (Pair T)) (imap : T → Option Nat) (index : Nat)
      (current : Pair T),
      1 ≤ d → index ≤ fuel → index < pairs.length →
      HeapExceptUp d (pairs.set index current) index →
      IsHeap d (bubbleUpAux d current fuel pairs imap index).1
  | 0, pairs, imap, index, current, _, hfuel, hlen, hhe => by
    simp only [bubbleUpAux]
    exact heapExceptUp_zero hhe (by omega)
  | fuel + 1, pairs, imap, index, current, hd, hfuel, hlen, hhe => by
    obtain ⟨hE, hG⟩ := hhe
    simp only [bubbleUpAux]
    split
    case isFalse hpos =>
      exact heapExceptUp_zero ⟨hE, hG⟩ (by omega)
    case isTrue hpos =>
      have hplt : (index - 1) / d < index := parent_div_lt_self hpos
      have hplen : (index - 1) / d < pairs.length := lt_trans hplt hlen
      have hA_index : (pairs.set index current)[index]? = some current :=
        List.getElem?_set_self (by simpa using hlen)
      have hA_other : ∀ k, k ≠ index →
          (pairs.set index current)[k]? = pairs[k]? := by
        intro k hk
        rw [List.getElem?_set_ne (Ne.symm hk)]
      split
      case h_2 hnone =>
        rw [List.getElem?_eq_none_iff] at hnone
        omega
      case h_1 parent hpareq =>
        split
        case isFalse hcmp =>
          refine isHeap_of_forall ?_
          intro j hj
          by_cases hji : j = index
          · intro pa pb geta getb
            rw [hji, hA_index] at geta
            injection geta with geta
            subst geta
            rw [hji, hA_other _ (by omega), hpareq] at getb
            injection getb with getb
            subst getb
            exact not_lt.mp hcmp
          · exact hE j hj hji
        case isTrue hcmp =>
          have hplen2 : (index - 1) / d < (pairs.set index parent).length := by
            simpa using hplen
          have hB_p : getElem? ((pairs.set index parent).set ((index - 1) / d) current)
              ((index - 1) / d) = some current :=
            List.getElem?_set_self hplen2
          have hB_index : getElem? ((pairs.set index parent).set ((index - 1) / d) current)
              index = some parent := by
            rw [List.getElem?_set_ne (by omega),
              List.getElem?_set_self (by simpa using hlen)]
          have hB_other : ∀ k, k ≠ index → k ≠ (index - 1) / d →
              ((pairs.set index parent).set ((index - 1) / d) current)[k]?
                = pairs[k]? := by
            intro k hk1 hk2
            rw [List.getElem?_set_ne (Ne.symm hk2), List.getElem?_set_ne (Ne.symm hk1)]
          have hstep : HeapExceptUp d
              ((pairs.set index parent).set ((index - 1) / d) current)
              ((index - 1) / d) := by
            constructor
            · intro j hj hjp pa pb geta getb
              by_cases hji : j = index
              · rw [hji, hB_index] at geta
                injection geta with geta
                subst geta
                rw [hji, hB_p] at getb
                injection getb with getb
                subst getb
                exact le_of_lt hcmp
              · by_cases hpi : (j - 1) / d = index
                · rw [hB_other _ hji hjp] at geta
                  rw [hpi, hB_index] at getb
                  injection getb with getb
                  subst getb
                  exact hG hpos j hj hpi pa parent
                    (by rw [hA_other _ hji]; exact geta)
                    (by rw [hA_other _ (by omega)]; exact hpareq)
                · by_cases hpp : (j - 1) / d = (index - 1) / d
                  · rw [hB_other _ hji hjp] at geta
                    rw [hpp, hB_p] at getb
                    injection getb with getb
                    subst getb
                    have := hE j hj hji pa parent
                      (by rw [hA_other _ hji]; exact geta)
                      (by rw [hpp, hA_other _ (by omega)]; exact hpareq)
                    exact le_trans this (le_of_lt hcmp)
                  · rw [hB_other _ hji hjp] at geta
                    rw [hB_other _ hpi hpp] at getb
                    exact hE j hj hji pa pb
                      (by rw [hA_other _ hji]; exact geta)
                      (by rw [hA_other _ hpi]; exact getb)
            · intro hp0 j hj hpi pa pb geta getb
              have hgp : ((index - 1) / d - 1) / d < (index - 1) / d :=
                parent_div_lt_self hp0
              rw [hB_other _ (by omega) (by omega)] at getb
              have hparent_le : parent.priority ≤ pb.priority := by
                refine hE ((index - 1) / d) hp0 (by omega) parent pb ?_ ?_
                · rw [hA_other _ (by omega)]
                  exact hpareq
                · rw [hA_other _ (by omega)]
                  exact getb
              by_cases hji : j = index
              · rw [hji, hB_index] at geta
                injection geta with geta
                subst geta
                exact hparent_le
              · have hjp : j ≠ (index - 1) / d := by
                  have := @parent_div_lt_self j d hj
                  omega
                rw [hB_other _ hji hjp] at geta
                have hja : pa.priority ≤ parent.priority := by
                  refine hE j hj hji pa parent ?_ ?_
                  · rw [hA_other _ hji]
                    exact geta
                  · rw [hpi, hA_other _ (by omega)]
                    exact hpareq
                exact le_trans hja hparent_le
          exact bubbleUpAux_isHeap fuel (pairs.set index parent)
            (mapInsert imap parent.value index) ((index - 1) / d) current hd
            (by omega) (by simpa using hplen) hstep

theorem isHeap_take {d : Nat} {pairs : List (Pair T)} (hh : IsHeap d pairs) (m : Nat) :
    IsHeap d (pairs.take m) := by
  refine isHeap_of_forall ?_
  intro j hj pa pb geta getb
  rw [List.getElem?_take] at geta getb
  split at geta
  case isFalse => cases geta
  case isTrue hjm =>
    split at getb
    case isFalse => cases getb
    case isTrue => exact isHeap_ple hh j hj pa pb geta getb

/-- Appending then bubbling the appended entry up preserves the heap
invariant: `Insert`. -/
theorem Insert_isHeap (q : PriorityQueue T) (v : T) (p : Int)
    (hd : 1 ≤ q.sizeD) (hh : IsHeap q.sizeD q.pairs) :
    IsHeap q.sizeD (q.Insert v p).pairs := by
  unfold Insert bubbleUp bubbleUpIndex
  dsimp only
  have hlen1 : (q.pairs ++ [(⟨p, v⟩ : Pair T)]).length = q.pairs.length + 1 := by simp
  have hidx : (q.pairs ++ [(⟨p, v⟩ : Pair T)]).length - 1 = q.pairs.length := by simp
  rw [hidx]
  have hget : (q.pairs ++ [(⟨p, v⟩ : Pair T)])[q.pairs.length]? = some ⟨p, v⟩ :=
    List.getElem?_concat_length _ _
  rw [hget]
  dsimp only
  have hset : (q.pairs ++ [(⟨p, v⟩ : Pair T)]).set q.pairs.length ⟨p, v⟩
      = q.pairs ++ [(⟨p, v⟩ : Pair T)] := by
    rw [List.set_append_right _ _ (le_refl _)]
    simp
  refine bubbleUpAux_isHeap _ _ _ _ _ hd (le_refl _) (by simp) ?_
  rw [hset]
  constructor
  · intro j hj hji pa pb geta getb
    have hjlen := lt_length_of_getElem?_some geta
    rw [hlen1] at hjlen
    have hjlt : j < q.pairs.length := by omega
    have hpj : (j - 1) / q.sizeD < j := parent_div_lt_self hj
    rw [List.getElem?_append, if_pos (by omega)] at geta
    rw [List.getElem?_append, if_pos (by omega)] at getb
    exact isHeap_ple hh j hj pa pb geta getb
  · intro hpos j hj hpar pa pb geta getb
    have hjlen := lt_length_of_getElem?_some geta
    rw [hlen1] at hjlen
    have hr := (childRange_iff hd _ j hj).mp hpar
    have hmul : q.pairs.length * 1 ≤ q.pairs.length * q.sizeD :=
      Nat.mul_le_mul_left _ hd
    omega

/-- Extracting the maximum preserves the heap invariant: `Top`. -/
theorem Top_isHeap (q : PriorityQueue T) (hd : 1 ≤ q.sizeD)
    (hh : IsHeap q.sizeD q.pairs) : IsHeap q.sizeD q.Top.1.pairs := by
  unfold Top
  cases hg : q.pairs.getLast? with
  | none => exact hh
  | some p =>
    dsimp only
    split
    case h_1 =>
      dsimp only
      rw [List.dropLast_eq_take]
      exact isHeap_take hh _
    case h_2 element helem =>
      dsimp only
      unfold pushDown pushDownIndex
      have hstep : HeapExceptDown q.sizeD (q.pairs.dropLast.set 0 p) 0 := by
        constructor
        · intro j hj hpar pa pb geta getb
          have hjlen := lt_length_of_getElem?_some geta
          simp only [List.length_set, List.length_dropLast] at hjlen
          have hpj : (j - 1) / q.sizeD < j := parent_div_lt_self hj
          rw [List.getElem?_set_ne (by omega), List.getElem?_dropLast,
            if_pos (by omega)] at geta
          rw [List.getElem?_set_ne (by omega), List.getElem?_dropLast,
            if_pos (by omega)] at getb
          exact isHeap_ple hh j hj pa pb geta getb
        · intro h0
          omega
      exact pushDownAux_isHeap _ _ 0 hd (by omega) hstep

theorem mem_of_getElem?_some {α : Type} {l : List α} {j : Nat} {a : α}
    (h : l[j]? = some a) : a ∈ l := by
  have hl := lt_length_of_getElem?_some h
  rw [List.getElem?_eq_getElem hl] at h
  injection h with h
  exact h ▸ List.getElem_mem hl

theorem isHeap_root_max_aux {d : Nat} {pairs : List (Pair T)} (hh : IsHeap d pairs) :
    ∀ (k j : Nat), j < k → ∀ (pj p0 : Pair T),
      pairs[j]? = some pj → pairs[0]? = some p0 → pj.priority ≤ p0.priority
  | 0, j, hjk => absurd hjk (by omega)
  | k + 1, j, hjk => by
    intro pj p0 hj h0
    rcases Nat.eq_zero_or_pos j with hj0 | hj0
    · subst hj0
      rw [hj] at h0
      injection h0 with h0
      rw [h0]
    · have hjlen := lt_length_of_getElem?_some hj
      have hplen : (j - 1) / d < pairs.length := parent_div_lt hjlen
      have hstep := isHeap_ple hh j hj0 pj (pairs.get ⟨(j - 1) / d, hplen⟩) hj
        (getElem?_eq_some_get _ _ hplen)
      have hrec : (j - 1) / d < k := by
        have := @parent_div_lt_self j d hj0
        omega
      exact le_trans hstep
        (isHeap_root_max_aux hh k ((j - 1) / d) hrec _ p0
          (getElem?_eq_some_get _ _ hplen) h0)

/-- In a heap the root entry has the greatest priority. -/
theorem isHeap_root_max {d : Nat} {pairs : List (Pair T)} (hh : IsHeap d pairs) :
    ∀ (j : Nat) (pj p0 : Pair T), pairs[j]? = some pj → pairs[0]? = some p0 →
      pj.priority ≤ p0.priority :=
  fun j => isHeap_root_max_aux hh (j + 1) j (Nat.lt_succ_self j)

theorem pushDownAux_pairs_mem :
    ∀ (fuel : Nat) (q : PriorityQueue T) (i : Nat) (x : Pair T),
      x ∈ (pushDownAux fuel q i).pairs → x ∈ q.pairs
  | 0, _, _, _ => fun hx => hx
  | fuel + 1, q, i, x => by
    simp only [pushDownAux]
    split
    case isFalse => exact fun hx => hx
    case isTrue =>
      split
      case h_1 => exact fun hx => hx
      case h_2 best c hpc =>
        split
        case h_1 child cur hchild hcur =>
          split
          case isTrue hcmp =>
            intro hx
            have hx2 := pushDownAux_pairs_mem fuel _ c x hx
            simp only at hx2
            rcases List.mem_or_eq_of_mem_set hx2 with hx3 | hx3
            · rcases List.mem_or_eq_of_mem_set hx3 with hx4 | hx4
              · exact hx4
              · exact hx4 ▸ mem_of_getElem?_some hchild
            · exact hx3 ▸ mem_of_getElem?_some hcur
          case isFalse => exact fun hx => hx
        case h_2 => exact fun hx => hx

/-- The pair returned by `Top` on a nonempty heap is a maximum. -/
theorem Top_ok_max (q : PriorityQueue T) (hh : IsHeap q.sizeD q.pairs)
    (hne : q.pairs ≠ []) :
    ∃ p, q.Top.2 = .ok p ∧ p ∈ q.pairs ∧ ∀ x ∈ q.pairs, x.priority ≤ p.priority := by
  unfold Top
  cases hg : q.pairs.getLast? with
  | none => exact absurd (List.getLast?_eq_none_iff.mp hg) hne
  | some p =>
    have hpmem : p ∈ q.pairs := by
      rw [List.getLast?_eq_getElem?] at hg
      exact mem_of_getElem?_some hg
    dsimp only
    split
    case h_1 hhead =>
      have hempty : q.pairs.dropLast = [] := by
        cases hd2 : q.pairs.dropLast with
        | nil => rfl
        | cons a l => rw [hd2] at hhead; cases hhead
      have hlen1 : q.pairs.length = 1 := by
        have := List.length_dropLast q.pairs
        rw [hempty] at this
        have hne2 : 0 < q.pairs.length := List.length_pos.mpr hne
        simp at this
        omega
      obtain ⟨a, ha⟩ := List.length_eq_one.mp hlen1
      rw [ha] at hg
      simp only [List.getLast?_singleton] at hg
      injection hg with hg
      refine ⟨p, rfl, hpmem, ?_⟩
      intro x hx
      rw [ha, List.mem_singleton] at hx
      rw [hx, hg]
    case h_2 element hhead =>
      refine ⟨element, rfl, ?_, ?_⟩
      · have : element ∈ q.pairs.dropLast := by
          rw [List.head?_eq_getElem?] at hhead
          exact mem_of_getElem?_some hhead
        exact List.dropLast_subset _ this
      · intro x hx
        rw [List.head?_eq_getElem?, List.getElem?_dropLast] at hhead
        split at hhead
        case isFalse => cases hhead
        case isTrue h0len =>
          obtain ⟨n, hn, hxn⟩ := List.mem_iff_getElem.mp hx
          exact isHeap_root_max hh n x element
            (by rw [List.getElem?_eq_getElem hn]; rw [hxn]) hhead

theorem Top_pairs_subset (q : PriorityQueue T) :
    ∀ x ∈ q.Top.1.pairs, x ∈ q.pairs := by
  unfold Top
  cases hg : q.pairs.getLast? with
  | none => exact fun x hx => hx
  | some p =>
    have hpmem : p ∈ q.pairs := by
      rw [List.getLast?_eq_getElem?] at hg
      exact mem_of_getElem?_some hg
    dsimp only
    split
    case h_1 hhead =>
      intro x hx
      exact List.dropLast_subset _ hx
    case h_2 element hhead =>
      intro x hx
      simp only at hx
      have hx2 := pushDownAux_pairs_mem _ _ _ x hx
      simp only at hx2
      rcases List.mem_or_eq_of_mem_set hx2 with hx3 | hx3
      · exact List.dropLast_subset _ hx3
      · exact hx3 ▸ hpmem

/-- Draining a heap by repeated `Top` yields pairwise non-increasing
priorities, and every drained pair comes from the queue. -/
theorem drainAux_sorted :
    ∀ (n : Nat) (q : PriorityQueue T), q.pairs.length = n →
      1 ≤ q.sizeD → IsHeap q.sizeD q.pairs →
      List.Chain' (fun a b => b.priority ≤ a.priority) (drainAux n q) ∧
      ∀ x ∈ drainAux n q, x ∈ q.pairs
  | 0, q, _, _, _ => by
    constructor
    · simp [drainAux]
    · simp [drainAux]
  | n + 1, q, hlen, hd, hh => by
    have hne : q.pairs ≠ [] := by
      intro h
      rw [h] at hlen
      cases hlen
    obtain ⟨p, hok, hpmem, hmax⟩ := Top_ok_max q hh hne
    have hlen2 : q.Top.1.pairs.length = n := by
      rw [Top_pairs_length q hne]
      omega
    have hsd : q.Top.1.sizeD = q.sizeD := Top_sizeD q
    have hh2 : IsHeap q.Top.1.sizeD q.Top.1.pairs := by
      rw [hsd]
      exact Top_isHeap q hd hh
    have IH := drainAux_sorted n q.Top.1 hlen2 (by rw [hsd]; exact hd) hh2
    have hstep : drainAux (n + 1) q = p :: drainAux n q.Top.1 := by
      show (match q.Top with
            | (_, .error _) => []
            | (q2, .ok p) => p :: drainAux n q2) = _
      cases htp : q.Top with
      | mk q2 r =>
        rw [htp] at hok
        simp only at hok
        rw [hok]
    rw [hstep]
    constructor
    · rw [List.chain'_cons']
      refine ⟨?_, IH.1⟩
      intro y hy
      have hymem : y ∈ drainAux n q.Top.1 := by
        cases hdr : drainAux n q.Top.1 with
        | nil => rw [hdr] at hy; cases hy
        | cons a l =>
          rw [hdr] at hy
          injection hy with hy
          rw [← hy]
          exact List.mem_cons_self a l
      exact hmax y (Top_pairs_subset q y (IH.2 y hymem))
    · intro x hx
      rcases List.mem_cons.mp hx with hx | hx
      · exact hx ▸ hpmem
      · exact Top_pairs_subset q x (IH.2 x hx)

theorem mapInsert_self (m : T → Option Nat) (k : T) (i : Nat) :
    mapInsert m k i k = some i := by simp [mapInsert]

theorem mapInsert_ne (m : T → Option Nat) (k : T) (i : Nat) {v : T} (h : v ≠ k) :
    mapInsert m k i v = m v := by simp [mapInsert, h]

theorem mapDelete_self (m : T → Option Nat) (k : T) : mapDelete m k k = none := by
  simp [mapDelete]

theorem mapDelete_ne (m : T → Option Nat) (k : T) {v : T} (h : v ≠ k) :
    mapDelete m k v = m v := by simp [mapDelete, h]

/-- Dropping a stale key restores strict consistency. -/
theorem indexOK_delete_stale {pairs : List (Pair T)} {imap : T → Option Nat} {t : T}
    (h : IndexOK pairs imap (some t)) :
    IndexOK pairs (mapDelete imap t) none := by
  obtain ⟨hF, hB⟩ := h
  constructor
  · intro j pj hj
    obtain ⟨hv, hm⟩ := hF j pj hj
    refine ⟨by simp, ?_⟩
    rw [mapDelete_ne _ _ (fun he => hv (by rw [he]))]
    exact hm
  · intro v j hm _
    by_cases hv : v = t
    · rw [hv, mapDelete_self] at hm
      cases hm
    · rw [mapDelete_ne _ _ hv] at hm
      exact hB v j hm (by simp [hv])

/-- Every swap of `pushDownAux` updates both affected map entries, so
consistency (with an optional stale key) is preserved. -/
theorem pushDownAux_indexOK :
    ∀ (fuel : Nat) (q : PriorityQueue T) (i : Nat) (s : Option T),
      1 ≤ q.sizeD →
      IndexOK q.pairs q.indexMap s →
      IndexOK (pushDownAux fuel q i).pairs (pushDownAux fuel q i).indexMap s
  | 0, _, _, _, _, h => h
  | fuel + 1, q, i, s, hd, h => by
    obtain ⟨hF, hB⟩ := h
    simp only [pushDownAux]
    split
    case isFalse => exact ⟨hF, hB⟩
    case isTrue =>
      split
      case h_1 => exact ⟨hF, hB⟩
      case h_2 best c hpc =>
        split
        case h_2 => exact ⟨hF, hB⟩
        case h_1 child cur hchild hcur =>
          split
          case isFalse => exact ⟨hF, hB⟩
          case isTrue hcmp =>
            have hic : i < c := highestPriorityChild_gt q i hd hpc
            have hclen : c < q.pairs.length := lt_length_of_getElem?_some hchild
            have hilen : i < q.pairs.length := lt_trans hic hclen
            have hFc := hF c child hchild
            have hFi := hF i cur hcur
            have hvne : child.value ≠ cur.value := by
              intro he
              rw [he, hFi.2] at hFc
              have := hFc.2
              injection this with this
              omega
            have hk_c : ((q.pairs.set i child).set c cur)[c]? = some cur :=
              List.getElem?_set_self (by simpa using hclen)
            have hk_i : ((q.pairs.set i child).set c cur)[i]? = some child := by
              rw [List.getElem?_set_ne (Ne.symm (Nat.ne_of_lt hic)),
                List.getElem?_set_self hilen]
            have hk_other : ∀ k, k ≠ i → k ≠ c →
                ((q.pairs.set i child).set c cur)[k]? = q.pairs[k]? := by
              intro k hki hkc
              rw [List.getElem?_set_ne (Ne.symm hkc), List.getElem?_set_ne (Ne.symm hki)]
            have hstep : IndexOK ((q.pairs.set i child).set c cur)
                (mapInsert (mapInsert q.indexMap child.value i) cur.value c) s := by
              constructor
              · intro j pj hj
                by_cases hjc : j = c
                · rw [hjc, hk_c] at hj
                  injection hj with hj
                  subst hj
                  exact ⟨hFi.1, by rw [hjc, mapInsert_self]⟩
                · by_cases hji : j = i
                  · rw [hji, hk_i] at hj
                    injection hj with hj
                    subst hj
                    refine ⟨hFc.1, ?_⟩
                    rw [hji, mapInsert_ne _ _ _ hvne, mapInsert_self]
                  · rw [hk_other _ hji hjc] at hj
                    obtain ⟨hv, hm⟩ := hF j pj hj
                    have hne1 : pj.value ≠ cur.value := by
                      intro he
                      rw [he, hFi.2] at hm
                      injection hm with hm
                      exact hji hm.symm
                    have hne2 : pj.value ≠ child.value := by
                      intro he
                      rw [he, hFc.2] at hm
                      injection hm with hm
                      exact hjc hm.symm
                    refine ⟨hv, ?_⟩
                    rw [mapInsert_ne _ _ _ hne1, mapInsert_ne _ _ _ hne2]
                    exact hm
              · intro v j hm hs
                by_cases hvc : v = cur.value
                · rw [hvc, mapInsert_self] at hm
                  injection hm with hm
                  subst hm
                  exact ⟨cur, hk_c, hvc.symm⟩
                · rw [mapInsert_ne _ _ _ hvc] at hm
                  by_cases hvch : v = child.value
                  · rw [hvch, mapInsert_self] at hm
                    injection hm with hm
                    subst hm
                    exact ⟨child, hk_i, hvch.symm⟩
                  · rw [mapInsert_ne _ _ _ hvch] at hm
                    obtain ⟨pj, hj, hpv⟩ := hB v j hm hs
                    have hji : j ≠ i := by
                      intro he
                      rw [he, hcur] at hj
                      injection hj with hj
                      rw [← hj] at hpv
                      exact hvc hpv.symm
                    have hjc : j ≠ c := by
                      intro he
                      rw [he, hchild] at hj
                      injection hj with hj
                      rw [← hj] at hpv
                      exact hvch hpv.symm
                    exact ⟨pj, by rw [hk_other _ hji hjc]; exact hj, hpv⟩
            exact pushDownAux_indexOK fuel _ c s hd hstep

/-- The bubble-up loop maintains consistency: outside the moving hole the
map matches storage, the carried entry's value is unique, and the final
write restores full consistency. -/
theorem bubbleUpAux_indexOK {d : Nat} :
    ∀ (fuel : Nat) (pairs : List (Pair T)) (imap : T → Option Nat) (index : Nat)
      (current : Pair T),
      index ≤ fuel →
      index < pairs.length →
      (∀ j pj, pairs[j]? = some pj → j ≠ index → imap pj.value = some j) →
      (∀ v j, imap v = some j → v ≠ current.value →
        ∃ pj, pairs[j]? = some pj ∧ pj.value = v ∧ j ≠ index) →
      (∀ j pj, pairs[j]? = some pj → j ≠ index → pj.value ≠ current.value) →
      IndexOK (bubbleUpAux d current fuel pairs imap index).1
        (bubbleUpAux d current fuel pairs imap index).2 none := by
  have final : ∀ (pairs : List (Pair T)) (imap : T → Option Nat) (index : Nat)
      (current : Pair T),
      index < pairs.length →
      (∀ j pj, pairs[j]? = some pj → j ≠ index → imap pj.value = some j) →
      (∀ v j, imap v = some j → v ≠ current.value →
        ∃ pj, pairs[j]? = some pj ∧ pj.value = v ∧ j ≠ index) →
      (∀ j pj, pairs[j]? = some pj → j ≠ index → pj.value ≠ current.value) →
      IndexOK (pairs.set index current) (mapInsert imap current.value index) none := by
    intro pairs imap index current hlen hF hB hNC
    constructor
    · intro j pj hj
      by_cases hji : j = index
      · rw [hji, List.getElem?_set_self hlen] at hj
        injection hj with hj
        subst hj
        exact ⟨by simp, by rw [hji, mapInsert_self]⟩
      · rw [List.getElem?_set_ne (Ne.symm hji)] at hj
        refine ⟨by simp, ?_⟩
        rw [mapInsert_ne _ _ _ (hNC j pj hj hji)]
        exact hF j pj hj hji
    · intro v j hm _
      by_cases hvc : v = current.value
      · rw [hvc, mapInsert_self] at hm
        injection hm with hm
        subst hm
        exact ⟨current, List.getElem?_set_self hlen, hvc.symm⟩
      · rw [mapInsert_ne _ _ _ hvc] at hm
        obtain ⟨pj, hj, hpv, hji⟩ := hB v j hm hvc
        exact ⟨pj, by rw [List.getElem?_set_ne (Ne.symm hji)]; exact hj, hpv⟩
  intro fuel
  induction fuel with
  | zero =>
    intro pairs imap index current hfuel hlen hF hB hNC
    simp only [bubbleUpAux]
    exact final pairs imap index current hlen hF hB hNC
  | succ fuel ih =>
    intro pairs imap index current hfuel hlen hF hB hNC
    simp only [bubbleUpAux]
    split
    case isFalse hpos =>
      exact final pairs imap index current hlen hF hB hNC
    case isTrue hpos =>
      have hplt : (index - 1) / d < index := parent_div_lt_self hpos
      have hplen : (index - 1) / d < pairs.length := lt_trans hplt hlen
      split
      case h_2 => exact final pairs imap index current hlen hF hB hNC
      case h_1 parent hpareq =>
        split
        case isFalse => exact final pairs imap index current hlen hF hB hNC
        case isTrue hcmp =>
          have hFp := hF _ parent hpareq (by omega)
          refine ih (pairs.set index parent) _ ((index - 1) / d) current
            (by omega) (by simpa using hplen) ?_ ?_ ?_
          · intro j pj hj hjp
            by_cases hji : j = index
            · rw [hji, List.getElem?_set_self hlen] at hj
              injection hj with hj
              subst hj
              rw [hji, mapInsert_self]
            · rw [List.getElem?_set_ne (Ne.symm hji)] at hj
              have hvne : pj.value ≠ parent.value := by
                intro he
                have h1 := hF j pj hj hji
                rw [he, hFp] at h1
                injection h1 with h1
                omega
              rw [mapInsert_ne _ _ _ hvne]
              exact hF j pj hj hji
          · intro v j hm hvc
            by_cases hvp : v = parent.value
            · rw [hvp, mapInsert_self] at hm
              injection hm with hm
              subst hm
              exact ⟨parent, List.getElem?_set_self hlen, hvp.symm, by omega⟩
            · rw [mapInsert_ne _ _ _ hvp] at hm
              obtain ⟨pj, hj, hpv, hji⟩ := hB v j hm hvc
              have hjp : j ≠ (index - 1) / d := by
                intro he
                rw [he, hpareq] at hj
                injection hj with hj
                rw [← hj] at hpv
                exact hvp hpv.symm
              exact ⟨pj, by rw [List.getElem?_set_ne (Ne.symm hji)]; exact hj, hpv, hjp⟩
          · intro j pj hj hjp
            by_cases hji : j = index
            · rw [hji, List.getElem?_set_self hlen] at hj
              injection hj with hj
              subst hj
              exact hNC _ parent hpareq (by omega)
            · rw [List.getElem?_set_ne (Ne.symm hji)] at hj
              exact hNC j pj hj hji

theorem bubbleUpIndex_indexOK (q : PriorityQueue T) (i : Nat)
    (h : IndexOK q.pairs q.indexMap none) :
    IndexOK (q.bubbleUpIndex i).pairs (q.bubbleUpIndex i).indexMap none := by
  obtain ⟨hF, hB⟩ := h
  unfold bubbleUpIndex
  cases hgi : q.pairs[i]? with
  | none => exact ⟨hF, hB⟩
  | some current =>
    dsimp only
    refine bubbleUpAux_indexOK i q.pairs q.indexMap i current (le_refl i)
      (lt_length_of_getElem?_some hgi) ?_ ?_ ?_
    · intro j pj hj _
      exact (hF j pj hj).2
    · intro v j hm hvc
      obtain ⟨pj, hj, hpv⟩ := hB v j hm (by simp)
      refine ⟨pj, hj, hpv, ?_⟩
      intro he
      rw [he, hgi] at hj
      injection hj with hj
      rw [← hj] at hpv
      exact hvc hpv.symm
    · intro j pj hj hji he
      have h1 := (hF j pj hj).2
      have h2 := (hF i current hgi).2
      rw [he] at h1
      rw [h1] at h2
      injection h2 with h2
      exact hji h2

theorem pushDownIndex_indexOK (q : PriorityQueue T) (i : Nat) (hd : 1 ≤ q.sizeD)
    (h : IndexOK q.pairs q.indexMap none) :
    IndexOK (q.pushDownIndex i).pairs (q.pushDownIndex i).indexMap none :=
  pushDownAux_indexOK _ q i none hd h

/-- `Insert` of a value not already present keeps the index exactly
consistent with storage. -/
theorem Insert_indexOK (q : PriorityQueue T) (v : T) (p : Int)
    (h : IndexOK q.pairs q.indexMap none) (hnew : q.indexMap v = none) :
    IndexOK (q.Insert v p).pairs (q.Insert v p).indexMap none := by
  obtain ⟨hF, hB⟩ := h
  unfold Insert bubbleUp bubbleUpIndex
  dsimp only
  have hidx : (q.pairs ++ [(⟨p, v⟩ : Pair T)]).length - 1 = q.pairs.length := by simp
  rw [hidx]
  have hget : (q.pairs ++ [(⟨p, v⟩ : Pair T)])[q.pairs.length]? = some ⟨p, v⟩ :=
    List.getElem?_concat_length _ _
  rw [hget]
  dsimp only
  refine bubbleUpAux_indexOK q.pairs.length _ _ q.pairs.length ⟨p, v⟩ (le_refl _)
    (by simp) ?_ ?_ ?_
  · intro j pj hj hji
    have hjlen := lt_length_of_getElem?_some hj
    simp only [List.length_append, List.length_cons, List.length_nil] at hjlen
    have hjlt : j < q.pairs.length := by omega
    rw [List.getElem?_append, if_pos hjlt] at hj
    have hvne : pj.value ≠ v := by
      intro he
      have := (hF j pj hj).2
      rw [he, hnew] at this
      cases this
    rw [mapInsert_ne _ _ _ hvne]
    exact (hF j pj hj).2
  · intro u j hm huc
    have hvne : u ≠ v := by
      intro he
      exact huc (by rw [he])
    rw [mapInsert_ne _ _ _ hvne] at hm
    obtain ⟨pj, hj, hpv⟩ := hB u j hm (by simp)
    have hjlt := lt_length_of_getElem?_some hj
    refine ⟨pj, ?_, hpv, by omega⟩
    rw [List.getElem?_append, if_pos hjlt]
    exact hj
  · intro j pj hj hji he
    have hjlen := lt_length_of_getElem?_some hj
    simp only [List.length_append, List.length_cons, List.length_nil] at hjlen
    have hjlt : j < q.pairs.length := by omega
    rw [List.getElem?_append, if_pos hjlt] at hj
    have := (hF j pj hj).2
    rw [he, hnew] at this
    cases this

theorem Update_indexOK (q : PriorityQueue T) (v : T) (p : Int) (hd : 1 ≤ q.sizeD)
    (h : IndexOK q.pairs q.indexMap none) :
    IndexOK (q.Update v p).1.pairs (q.Update v p).1.indexMap none := by
  unfold Update
  cases hm : q.indexMap v with
  | none => exact h
  | some index =>
    dsimp only
    cases hgi : q.pairs[index]? with
    | none => exact h
    | some pr =>
      obtain ⟨hF, hB⟩ := h
      have hilen := lt_length_of_getElem?_some hgi
      have hset : IndexOK (q.pairs.set index ⟨p, pr.value⟩) q.indexMap none := by
        constructor
        · intro j pj hj
          by_cases hji : j = index
          · rw [hji, List.getElem?_set_self hilen] at hj
            injection hj with hj
            subst hj
            exact ⟨by simp, by rw [hji]; exact (hF index pr hgi).2⟩
          · rw [List.getElem?_set_ne (Ne.symm hji)] at hj
            exact hF j pj hj
        · intro u j hmu hs
          obtain ⟨pj, hj, hpv⟩ := hB u j hmu hs
          by_cases hji : j = index
          · refine ⟨⟨p, pr.value⟩, ?_, ?_⟩
            · rw [hji]
              exact List.getElem?_set_self hilen
            · rw [hji, hgi] at hj
              injection hj with hj
              rw [← hj] at hpv
              exact hpv
          · exact ⟨pj, by rw [List.getElem?_set_ne (Ne.symm hji)]; exact hj, hpv⟩
      dsimp only
      split
      · exact bubbleUpIndex_indexOK _ index hset
      · split
        · exact pushDownIndex_indexOK _ index hd hset
        · exact hset

theorem Remove_indexOK (q : PriorityQueue T) (v : T) (hd : 1 ≤ q.sizeD)
    (h : IndexOK q.pairs q.indexMap none) :
    IndexOK (q.Remove v).1.pairs (q.Remove v).1.indexMap none := by
  unfold Remove
  cases hm : q.indexMap v with
  | none => exact h
  | some index =>
    obtain ⟨hF, hB⟩ := h
    obtain ⟨target, htarget, htv⟩ := hB v index hm (by simp)
    have hilen := lt_length_of_getElem?_some htarget
    dsimp only
    split
    case isTrue hlast =>
      have hres : IndexOK (q.pairs.take (q.pairs.length - 1))
          (mapDelete q.indexMap v) none := by
        constructor
        · intro j pj hj
          rw [List.getElem?_take] at hj
          split at hj
          case isFalse => cases hj
          case isTrue hjlt =>
            have hvne : pj.value ≠ v := by
              intro he
              have h1 := (hF j pj hj).2
              rw [he] at h1
              rw [h1] at hm
              injection hm with hm
              omega
            refine ⟨by simp, ?_⟩
            rw [mapDelete_ne _ _ hvne]
            exact (hF j pj hj).2
        · intro u j hmu _
          by_cases huv : u = v
          · rw [huv, mapDelete_self] at hmu
            cases hmu
          · rw [mapDelete_ne _ _ huv] at hmu
            obtain ⟨pj, hj, hpv⟩ := hB u j hmu (by simp)
            have hjne : j ≠ index := by
              intro he
              rw [he, htarget] at hj
              injection hj with hj
              rw [← hj] at hpv
              rw [htv] at hpv
              exact huv hpv.symm
            have hjlen := lt_length_of_getElem?_some hj
            refine ⟨pj, ?_, hpv⟩
            rw [List.getElem?_take, if_pos (by omega)]
            exact hj
      exact hres
    case isFalse hlast =>
      have hlenpos : 0 < q.pairs.length := by omega
      have hglast : q.pairs[q.pairs.length - 1]? =
          some (q.pairs.get ⟨q.pairs.length - 1, by omega⟩) :=
        getElem?_eq_some_get _ _ (by omega)
      rw [htarget, hglast]
      dsimp only
      set last := q.pairs.get ⟨q.pairs.length - 1, by omega⟩ with hlastdef
      have hFlast := hF (q.pairs.length - 1) last hglast
      have hFtarget := hF index target htarget
      have hlv : last.value ≠ v := by
        intro he
        rw [← htv] at he
        rw [he, hFtarget.2] at hFlast
        have := hFlast.2
        injection this with this
        omega
      have hq1 : IndexOK ((q.pairs.set index last).take (q.pairs.length - 1))
          (mapDelete (mapInsert q.indexMap last.value index) target.value) none := by
        constructor
        · intro j pj hj
          rw [List.getElem?_take] at hj
          split at hj
          case isFalse => cases hj
          case isTrue hjlt =>
            by_cases hji : j = index
            · rw [hji, List.getElem?_set_self hilen] at hj
              injection hj with hj
              subst hj
              refine ⟨by simp, ?_⟩
              rw [htv, mapDelete_ne _ _ hlv, mapInsert_self, hji]
            · rw [List.getElem?_set_ne (Ne.symm hji)] at hj
              have h1 := (hF j pj hj).2
              have hvne : pj.value ≠ v := by
                intro he
                rw [he] at h1
                rw [h1] at hm
                injection hm with hm
                exact hji hm
              have hvnl : pj.value ≠ last.value := by
                intro he
                rw [he, hFlast.2] at h1
                injection h1 with h1
                omega
              refine ⟨by simp, ?_⟩
              rw [htv, mapDelete_ne _ _ hvne, mapInsert_ne _ _ _ hvnl]
              exact h1
        · intro u j hmu _
          by_cases huv : u = v
          · rw [huv, htv, mapDelete_self] at hmu
            cases hmu
          · rw [htv, mapDelete_ne _ _ huv] at hmu
            by_cases hul : u = last.value
            · rw [hul, mapInsert_self] at hmu
              injection hmu with hmu
              subst hmu
              refine ⟨last, ?_, hul.symm⟩
              rw [List.getElem?_take, if_pos (by omega), List.getElem?_set_self hilen]
            · rw [mapInsert_ne _ _ _ hul] at hmu
              obtain ⟨pj, hj, hpv⟩ := hB u j hmu (by simp)
              have hjne : j ≠ index := by
                intro he
                rw [he, htarget] at hj
                injection hj with hj
                rw [← hj] at hpv
                rw [htv] at hpv
                exact huv hpv.symm
              have hjnl : j ≠ q.pairs.length - 1 := by
                intro he
                rw [he, hglast] at hj
                injection hj with hj
                rw [← hj] at hpv
                exact hul hpv.symm
              have hjlen := lt_length_of_getElem?_some hj
              refine ⟨pj, ?_, hpv⟩
              rw [List.getElem?_take, if_pos (by omega),
                List.getElem?_set_ne (Ne.symm hjne)]
              exact hj
      split
      · exact bubbleUpIndex_indexOK _ index hq1
      · split
        · exact pushDownIndex_indexOK _ index hd hq1
        · exact hq1

theorem Top_indexOK (q : PriorityQueue T) (hd : 1 ≤ q.sizeD)
    (h : IndexOK q.pairs q.indexMap none) :
    IndexOK q.Top.1.pairs q.Top.1.indexMap none := by
  obtain ⟨hF, hB⟩ := h
  unfold Top
  cases hg : q.pairs.getLast? with
  | none => exact ⟨hF, hB⟩
  | some p =>
    rw [List.getLast?_eq_getElem?] at hg
    have hlenpos : 0 < q.pairs.length := by
      rcases Nat.eq_zero_or_pos q.pairs.length with h0 | h0
      · rw [List.getElem?_eq_none (by omega)] at hg
        cases hg
      · exact h0
    have hFlast := hF (q.pairs.length - 1) p hg
    have hq1 : IndexOK q.pairs.dropLast (mapDelete q.indexMap p.value) none := by
      constructor
      · intro j pj hj
        rw [List.getElem?_dropLast] at hj
        split at hj
        case isFalse => cases hj
        case isTrue hjlt =>
          have h1 := (hF j pj hj).2
          have hvne : pj.value ≠ p.value := by
            intro he
            rw [he, hFlast.2] at h1
            injection h1 with h1
            omega
          exact ⟨by simp, by rw [mapDelete_ne _ _ hvne]; exact h1⟩
      · intro u j hmu _
        by_cases hup : u = p.value
        · rw [hup, mapDelete_self] at hmu
          cases hmu
        · rw [mapDelete_ne _ _ hup] at hmu
          obtain ⟨pj, hj, hpv⟩ := hB u j hmu (by simp)
          have hjne : j ≠ q.pairs.length - 1 := by
            intro he
            rw [he, hg] at hj
            injection hj with hj
            rw [← hj] at hpv
            exact hup hpv.symm
          have hjlen := lt_length_of_getElem?_some hj
          refine ⟨pj, ?_, hpv⟩
          rw [List.getElem?_dropLast, if_pos (by omega)]
          exact hj
    dsimp only
    split
    case h_1 => exact hq1
    case h_2 element helem =>
      have hlen2 : 0 < q.pairs.dropLast.length := by
        rw [List.head?_eq_getElem?] at helem
        have := lt_length_of_getElem?_some helem
        omega
      have hlenlong : 2 ≤ q.pairs.length := by
        rw [List.length_dropLast] at hlen2
        omega
      rw [List.head?_eq_getElem?, List.getElem?_dropLast, if_pos (by omega)] at helem
      have hFhead := hF 0 element helem
      have hpe : p.value ≠ element.value := by
        intro he
        rw [he, hFhead.2] at hFlast
        have := hFlast.2
        injection this with this
        omega
      obtain ⟨hq1F, hq1B⟩ := hq1
      have hq2 : IndexOK (q.pairs.dropLast.set 0 p)
          (mapInsert (mapDelete q.indexMap p.value) p.value 0)
          (some element.value) := by
        constructor
        · intro j pj hj
          by_cases hj0 : j = 0
          · rw [hj0, List.getElem?_set_self (by omega)] at hj
            injection hj with hj
            subst hj
            refine ⟨by simp [hpe], ?_⟩
            rw [hj0, mapInsert_self]
          · rw [List.getElem?_set_ne (Ne.symm hj0)] at hj
            obtain ⟨_, h1⟩ := hq1F j pj hj
            have hvne : pj.value ≠ element.value := by
              intro he
              rw [List.getElem?_dropLast] at hj
              split at hj
              case isFalse => cases hj
              case isTrue =>
                have h2 := (hF j pj hj).2
                rw [he, hFhead.2] at h2
                injection h2 with h2
                exact hj0 h2.symm
            have hvnp : pj.value ≠ p.value := by
              intro he
              rw [he, mapDelete_self] at h1
              cases h1
            refine ⟨by simp [hvne], ?_⟩
            rw [mapInsert_ne _ _ _ hvnp]
            exact h1
        · intro u j hmu hs
          by_cases hup : u = p.value
          · rw [hup, mapInsert_self] at hmu
            injection hmu with hmu
            subst hmu
            exact ⟨p, by rw [List.getElem?_set_self (by omega)], hup.symm⟩
          · rw [mapInsert_ne _ _ _ hup] at hmu
            obtain ⟨pj, hj, hpv⟩ := hq1B u j hmu (by simp)
            have hj0 : j ≠ 0 := by
              intro he
              rw [he, List.getElem?_dropLast, if_pos (by omega)] at hj
              rw [helem] at hj
              injection hj with hj
              rw [← hj] at hpv
              rw [hpv] at hs
              exact hs rfl
            exact ⟨pj, by rw [List.getElem?_set_ne (Ne.symm hj0)]; exact hj, hpv⟩
      have hq3 := pushDownAux_indexOK (q.pairs.dropLast.set 0 p).length.succ
        ({ q with
            pairs := q.pairs.dropLast.set 0 p,
            indexMap := mapInsert (mapDelete q.indexMap p.value) p.value 0 }) 0
        (some element.value) hd hq2
      exact indexOK_delete_stale hq3

theorem set_swap_perm (l : List (Pair T)) (i j : Nat) (hi : i < l.length)
    (hj : j < l.length) :
    List.Perm ((l.set i (l.get ⟨j, hj⟩)).set j (l.get ⟨i, hi⟩)) l := by
  rw [List.perm_iff_count]
  intro a
  rw [List.get_eq_getElem, List.get_eq_getElem]
  by_cases hij : i = j
  · subst hij
    rw [List.set_set, List.count_set _ _ _ _ hi]
    by_cases hia : l[i] = a
    · have hc : 1 ≤ List.count a l := List.count_pos_iff.mpr (hia ▸ List.getElem_mem hi)
      simp only [beq_iff_eq, hia, if_true]
      omega
    · simp only [beq_iff_eq, hia, if_false]
      omega
  · rw [List.count_set _ _ _ _ (by simpa using hj), List.count_set _ _ _ _ hi]
    rw [List.getElem_set_ne hij]
    have h1 : l[i] = a → 1 ≤ List.count a l := fun he =>
      List.count_pos_iff.mpr (he ▸ List.getElem_mem hi)
    have h2 : l[j] = a → 1 ≤ List.count a l := fun he =>
      List.count_pos_iff.mpr (he ▸ List.getElem_mem hj)
    by_cases hia : l[i] = a
    · by_cases hja : l[j] = a
      · have hc1 := h1 hia
        simp only [beq_iff_eq, hia, hja, if_true]
        omega
      · have hc1 := h1 hia
        simp only [beq_iff_eq, hia, hja, if_true, if_false]
        omega
    · by_cases hja : l[j] = a
      · have hc2 := h2 hja
        simp only [beq_iff_eq, hia, hja, if_true, if_false]
        omega
      · simp only [beq_iff_eq, hia, hja, if_false]
        omega

/-- The bubble-up loop permutes the logical array (the stored array with
the carried entry written at the hole). -/
theorem bubbleUpAux_perm (d : Nat) :
    ∀ (fuel : Nat) (pairs : List (Pair T)) (imap : T → Option Nat) (index : Nat)
      (current : Pair T),
      index ≤ fuel → index < pairs.length →
      List.Perm (bubbleUpAux d current fuel pairs imap index).1
        (pairs.set index current)
  | 0, pairs, imap, index, current, hfuel, hlen => by
    simp only [bubbleUpAux]
    exact List.Perm.refl _
  | fuel + 1, pairs, imap, index, current, hfuel, hlen => by
    simp only [bubbleUpAux]
    split
    case isFalse => exact List.Perm.refl _
    case isTrue hpos =>
      have hplt : (index - 1) / d < index := parent_div_lt_self hpos
      have hplen : (index - 1) / d < pairs.length := lt_trans hplt hlen
      split
      case h_2 => exact List.Perm.refl _
      case h_1 parent hpareq =>
        split
        case isFalse => exact List.Perm.refl _
        case isTrue hcmp =>
          have IH := bubbleUpAux_perm d fuel (pairs.set index parent)
            (mapInsert imap parent.value index) ((index - 1) / d) current
            (by omega) (by simpa using hplen)
          refine IH.trans ?_
          have hL : (pairs.set index current).set index parent = pairs.set index parent :=
            List.set_set _ _ _ _
          have hgetp : (pairs.set index current).get
              ⟨(index - 1) / d, by simpa using hplen⟩ = parent := by
            have h1 := getElem?_eq_some_get (pairs.set index current) ((index - 1) / d)
              (by simpa using hplen)
            rw [List.getElem?_set_ne (by omega), hpareq] at h1
            injection h1 with h1
            exact h1.symm
          have hgeti : (pairs.set index current).get ⟨index, by simpa using hlen⟩
              = current := by
            have h1 := getElem?_eq_some_get (pairs.set index current) index
              (by simpa using hlen)
            rw [List.getElem?_set_self hlen] at h1
            injection h1 with h1
            exact h1.symm
          have hswap := set_swap_perm (pairs.set index current) index ((index - 1) / d)
            (by simpa using hlen) (by simpa using hplen)
          rw [hgetp, hgeti, hL] at hswap
          exact hswap

/-- The bubble-up loop ends by writing the carried entry at its final
position and pointing the index at it. -/
theorem bubbleUpAux_final (d : Nat) :
    ∀ (fuel : Nat) (pairs : List (Pair T)) (imap : T → Option Nat) (index : Nat)
      (current : Pair T),
      index ≤ fuel → index < pairs.length →
      ∃ j, j ≤ index ∧
        (bubbleUpAux d current fuel pairs imap index).2 current.value = some j ∧
        (bubbleUpAux d current fuel pairs imap index).1[j]? = some current
  | 0, pairs, imap, index, current, hfuel, hlen => by
    simp only [bubbleUpAux]
    exact ⟨index, le_refl _, mapInsert_self _ _ _, List.getElem?_set_self hlen⟩
  | fuel + 1, pairs, imap, index, current, hfuel, hlen => by
    simp only [bubbleUpAux]
    split
    case isFalse =>
      exact ⟨index, le_refl _, mapInsert_self _ _ _, List.getElem?_set_self hlen⟩
    case isTrue hpos =>
      have hplt : (index - 1) / d < index := parent_div_lt_self hpos
      have hplen : (index - 1) / d < pairs.length := lt_trans hplt hlen
      split
      case h_2 =>
        exact ⟨index, le_refl _, mapInsert_self _ _ _, List.getElem?_set_self hlen⟩
      case h_1 parent hpareq =>
        split
        case isFalse =>
          exact ⟨index, le_refl _, mapInsert_self _ _ _, List.getElem?_set_self hlen⟩
        case isTrue hcmp =>
          obtain ⟨j, hji, hmap, hget⟩ := bubbleUpAux_final d fuel (pairs.set index parent)
            (mapInsert imap parent.value index) ((index - 1) / d) current
            (by omega) (by simpa using hplen)
          exact ⟨j, by omega, hmap, hget⟩

theorem NewPriorityQueue_sizeD (T : Type) (d capacity : Int) :
    2 ≤ (NewPriorityQueue T d capacity).sizeD := by
  unfold NewPriorityQueue
  dsimp only
  split
  · rfl
  · rename_i hge
    omega

theorem applyOp_indexInv (q : PriorityQueue T) (op : Op T) (hd : 1 ≤ q.sizeD)
    (h : IndexInv q)
    (hpre : ∀ v p, op = Op.insert v p → q.indexMap v = none) :
    IndexInv (applyOp q op) := by
  cases op with
  | insert v p => exact Insert_indexOK q v p h (hpre v p rfl)
  | remove v => exact Remove_indexOK q v hd h
  | update v p => exact Update_indexOK q v p hd h
  | top => exact Top_indexOK q hd h

theorem runOps_indexInv (ops : List (Op T)) (q : PriorityQueue T) (hd : 1 ≤ q.sizeD)
    (h : IndexInv q) (hpre : insertPreOK q ops = true) :
    IndexInv (runOps q ops) := by
  induction ops generalizing q with
  | nil => exact h
  | cons op rest ih =>
    rw [insertPreOK, Bool.and_eq_true] at hpre
    obtain ⟨h1, h2⟩ := hpre
    refine ih (applyOp q op) (by rw [applyOp_sizeD]; exact hd) ?_ h2
    refine applyOp_indexInv q op hd h ?_
    intro v p he
    rw [he] at h1
    exact Option.isNone_iff_eq_none.mp h1

def opIsInsertTop {T : Type} : Op T → Bool
  | .insert _ _ => true
  | .top => true
  | _ => false

theorem runOps_isHeap (ops : List (Op T)) (q : PriorityQueue T) (hd : 1 ≤ q.sizeD)
    (hh : IsHeap q.sizeD q.pairs) (hops : ops.all opIsInsertTop = true) :
    IsHeap q.sizeD (runOps q ops).pairs := by
  induction ops generalizing q with
  | nil => exact hh
  | cons op rest ih =>
    rw [List.all_cons, Bool.and_eq_true] at hops
    obtain ⟨h1, h2⟩ := hops
    have hnext : IsHeap q.sizeD (applyOp q op).pairs := by
      cases op with
      | insert v p => exact Insert_isHeap q v p hd hh
      | top => exact Top_isHeap q hd hh
      | remove v => cases h1
      | update v p => cases h1
    have hsd : (applyOp q op).sizeD = q.sizeD := applyOp_sizeD q op
    rw [runOps]
    have := ih (applyOp q op) (by rw [hsd]; exact hd) (by rw [hsd]; exact hnext)
    rw [hsd] at this
    exact this h2

theorem pushDownAux_out_of_range :
    ∀ (fuel : Nat) (q : PriorityQueue T) (i : Nat),
      1 ≤ q.sizeD → q.pairs.length ≤ i → pushDownAux fuel q i = q
  | 0, _, _, _, _ => rfl
  | fuel + 1, q, i, hd, hle => by
    simp only [pushDownAux]
    have hnone : q.highestPriorityChild i = none := by
      rw [highestPriorityChild_eq_none_iff]
      have : i * 1 ≤ i * q.sizeD := Nat.mul_le_mul_left i hd
      omega
    rw [hnone]
    split <;> rfl

/-- The push-down loop needs at most `length - start` iterations: any two
sufficient budgets compute the same result. -/
theorem pushDownAux_congr_fuel :
    ∀ (k1 k2 : Nat) (q : PriorityQueue T) (i : Nat),
      1 ≤ q.sizeD → q.pairs.length - i ≤ k1 → q.pairs.length - i ≤ k2 →
      pushDownAux k1 q i = pushDownAux k2 q i
  | 0, k2, q, i, hd, h1, _ => by
    have hle : q.pairs.length ≤ i := by omega
    rw [pushDownAux_out_of_range 0 q i hd hle, pushDownAux_out_of_range k2 q i hd hle]
  | k1 + 1, 0, q, i, hd, _, h2 => by
    have hle : q.pairs.length ≤ i := by omega
    rw [pushDownAux_out_of_range (k1 + 1) q i hd hle,
      pushDownAux_out_of_range 0 q i hd hle]
  | k1 + 1, k2 + 1, q, i, hd, h1, h2 => by
    simp only [pushDownAux]
    split
    case isFalse => rfl
    case isTrue hcond =>
      cases hpc : q.highestPriorityChild i with
      | none => rfl
      | some bc =>
        obtain ⟨best, c⟩ := bc
        dsimp only
        cases hchild : q.pairs[c]? with
        | none => rfl
        | some child =>
          cases hcur : q.pairs[i]? with
          | none => rfl
          | some cur =>
            dsimp only
            split
            case isFalse => rfl
            case isTrue hcmp =>
              have hic := highestPriorityChild_gt q i hd hpc
              have hclen := lt_length_of_getElem?_some hchild
              refine pushDownAux_congr_fuel k1 k2 _ c hd ?_ ?_
              · simp only [List.length_set]
                omega
              · simp only [List.length_set]
                omega

/-- The bubble-up loop needs at most `index` iterations: any two
sufficient budgets compute the same result. -/
theorem bubbleUpAux_congr_fuel (d : Nat) (current : Pair T) :
    ∀ (k1 k2 : Nat) (pairs : List (Pair T)) (imap : T → Option Nat) (index : Nat),
      index ≤ k1 → index ≤ k2 →
      bubbleUpAux d current k1 pairs imap index
        = bubbleUpAux d current k2 pairs imap index
  | 0, k2, pairs, imap, index, h1, h2 => by
    have h0 : index = 0 := by omega
    subst h0
    cases k2 with
    | zero => rfl
    | succ k2 =>
      simp only [bubbleUpAux]
      rw [if_neg (by omega)]
  | k1 + 1, 0, pairs, imap, index, h1, h2 => by
    have h0 : index = 0 := by omega
    subst h0
    simp only [bubbleUpAux]
    rw [if_neg (by omega)]
  | k1 + 1, k2 + 1, pairs, imap, index, h1, h2 => by
    simp only [bubbleUpAux]
    split
    case isFalse => rfl
    case isTrue hpos =>
      cases hp : pairs[(index - 1) / d]? with
      | none => rfl
      | some parent =>
        dsimp only
        split
        case isFalse => rfl
        case isTrue hcmp =>
          have hplt : (index - 1) / d < index := parent_div_lt_self hpos
          exact bubbleUpAux_congr_fuel d current k1 k2 _ _ _ (by omega) (by omega)

end PriorityQueue

/-! Concrete states used by the claim theorems. -/

/-- The spec's concrete scenario queue after the three inserts
(`A`,`B`,`C` encoded as `0`,`1`,`2`). -/
def c1q3 : PriorityQueue Nat :=
  (((NewPriorityQueue Nat 2 0).Insert 0 10).Insert 1 5).Insert 2 8

def c1q4 : PriorityQueue Nat := (c1q3.Update 1 20).1

def c1q5 : PriorityQueue Nat := (c1q4.Remove 0).1

def c3ops : List (Op Nat) :=
  [.insert 0 50, .insert 1 40, .insert 2 30, .insert 3 20, .insert 4 10, .remove 1]

def c3state : PriorityQueue Nat := runOps (NewPriorityQueue Nat 2 0) c3ops

def c6ops : List (Op Nat) :=
  [.insert 0 10, .insert 1 5, .insert 2 8, .update 1 100]

def c6state : PriorityQueue Nat := runOps (NewPriorityQueue Nat 2 0) c6ops

/-- The state reached by `Remove`'s swap-with-last branch before any
rebalancing. -/
def removeSwapState {T : Type} [DecidableEq T] (q : PriorityQueue T) (index : Nat)
    (target last : Pair T) : PriorityQueue T :=
  { q with
    pairs := (q.pairs.set index last).take (q.pairs.length - 1),
    indexMap := mapDelete (mapInsert q.indexMap last.value index) target.value }

/-- C1: evaluation of the spec's concrete scenario on the code.  The
claim fails: after `Update(B, 20)` the code pushes `B` down (a no-op)
instead of bubbling it up, so `Peek` still returns `(10, A)`, `Remove(A)`
then makes `(8, C)` the root, and the two `Top` calls return `(8, C)` and
`(20, B)` in that order — not `(20, B)` then `(8, C)` as claimed.  Only
the first and last steps of the claimed scenario hold. -/
theorem C1_actual_scenario :
    c1q3.Peek = .ok ⟨10, 0⟩ ∧
    (c1q3.Update 1 20).2 = none ∧
    c1q4.Peek = .ok ⟨10, 0⟩ ∧
    (c1q4.Remove 0).2 = none ∧
    c1q5.Peek = .ok ⟨8, 2⟩ ∧
    c1q5.Top.2 = .ok ⟨8, 2⟩ ∧
    c1q5.Top.1.Peek = .ok ⟨20, 1⟩ ∧
    c1q5.Top.1.Top.2 = .ok ⟨20, 1⟩ ∧
    c1q5.Top.1.Top.1.pairs = [] ∧
    c1q5.Top.1.Top.1.Peek = .error .queueIsEmpty := by
  refine ⟨?_, ?_, ?_, ?_, ?_, ?_, ?_, ?_, ?_, ?_⟩ <;> decide

/-- C2: evaluation of `Update` at the failing input.  The claim (and the
spec) say a strictly higher new priority bubbles the entry up; the code
pushes it down instead, so raising `B` from 5 to 20 leaves it at
position 1 instead of moving it to the root, and lowering `A` from 10 to
2 leaves it at the root instead of pushing it down below `C`. -/
theorem C2_update_dispatch_swapped :
    (c1q3.Update 1 20).1.pairs = [⟨10, 0⟩, ⟨20, 1⟩, ⟨8, 2⟩] ∧
    (c1q3.Update 1 20).1.Peek = .ok ⟨10, 0⟩ ∧
    (c1q3.Update 0 2).1.pairs = [⟨2, 0⟩, ⟨5, 1⟩, ⟨8, 2⟩] ∧
    (c1q3.Update 0 2).1.Peek = .ok ⟨2, 0⟩ := by
  refine ⟨?_, ?_, ?_, ?_⟩ <;> decide

/-- C3 (counterexample): a sequence of duplicate-free `Insert` calls
followed by one `Remove` reaches a state that violates the max-heap
invariant: removing the entry with priority 40 relocates priority 10 to
position 1 and bubbles up (a no-op) instead of pushing down, leaving its
child with priority 20 above it. -/
theorem C3_counterexample :
    insertPreOK (NewPriorityQueue Nat 2 0) c3ops = true ∧
    ¬ IsHeap c3state.sizeD c3state.pairs := by
  constructor <;> decide

/-- C3 (amended): after any finite sequence of `Insert` and `Top` calls
on a freshly constructed queue, the max-heap invariant holds; `Remove`
and `Update` are excluded because either can break it. -/
theorem C3_heap_invariant_insert_top {T : Type} [DecidableEq T] (d capacity : Int)
    (ops : List (Op T)) (hops : ops.all PriorityQueue.opIsInsertTop = true) :
    IsHeap (runOps (NewPriorityQueue T d capacity) ops).sizeD
      (runOps (NewPriorityQueue T d capacity) ops).pairs := by
  have hd : 1 ≤ (NewPriorityQueue T d capacity).sizeD :=
    le_trans (by omega) (PriorityQueue.NewPriorityQueue_sizeD T d capacity)
  have hh : IsHeap (NewPriorityQueue T d capacity).sizeD
      (NewPriorityQueue T d capacity).pairs := by
    intro j hj
    exact absurd hj (by simp [NewPriorityQueue])
  have hres := PriorityQueue.runOps_isHeap ops _ hd hh hops
  rw [PriorityQueue.runOps_sizeD]
  exact hres

/-- C3 (witness): the amended theorem applied to a concrete
insert/insert/top sequence. -/
theorem C3_heap_invariant_witness :
    ([Op.insert 0 5, Op.insert 1 7, Op.top] : List (Op Nat)).all
        PriorityQueue.opIsInsertTop = true ∧
    IsHeap (runOps (NewPriorityQueue Nat 2 0)
        [Op.insert 0 5, Op.insert 1 7, Op.top]).sizeD
      (runOps (NewPriorityQueue Nat 2 0)
        [Op.insert 0 5, Op.insert 1 7, Op.top]).pairs :=
  ⟨by decide, C3_heap_invariant_insert_top 2 0 _ (by decide)⟩

/-- C4: `Remove` on a present value behaves exactly as claimed: if the
value sits in the last slot the sequence is truncated with no
rebalancing; otherwise the last entry overwrites the slot, the index is
updated, the sequence shrinks, and the relocated entry is bubbled up if
its priority is strictly below the removed one, pushed down if strictly
above, and left in place if equal. -/
theorem C4_remove_behavior {T : Type} [DecidableEq T] (q : PriorityQueue T) (v : T)
    (index : Nat) (hm : q.indexMap v = some index) :
    (index = q.pairs.length - 1 →
      q.Remove v =
        ({ q with
            pairs := q.pairs.take (q.pairs.length - 1),
            indexMap := mapDelete q.indexMap v }, none)) ∧
    (∀ target last, index ≠ q.pairs.length - 1 →
      q.pairs[index]? = some target →
      q.pairs[q.pairs.length - 1]? = some last →
      ((last.priority < target.priority →
          q.Remove v = ((removeSwapState q index target last).bubbleUpIndex index, none)) ∧
        (target.priority < last.priority →
          q.Remove v = ((removeSwapState q index target last).pushDownIndex index, none)) ∧
        (last.priority = target.priority →
          q.Remove v = (removeSwapState q index target last, none)))) := by
  constructor
  · intro hlast
    unfold PriorityQueue.Remove
    rw [hm]
    dsimp only
    rw [if_pos hlast]
  · intro target last hne ht hl
    unfold PriorityQueue.Remove
    rw [hm]
    dsimp only
    rw [if_neg hne, ht, hl]
    dsimp only
    refine ⟨?_, ?_, ?_⟩
    · intro hcmp
      rw [if_pos hcmp]
      rfl
    · intro hcmp
      rw [if_neg (by omega), if_pos hcmp]
      rfl
    · intro heq
      rw [if_neg (by omega), if_neg (by omega)]
      rfl

/-- C4 (witness): removing value `0` (priority 10, position 0) from the
three-element scenario queue takes the swap branch with relocated
priority 8 < 10. -/
theorem C4_remove_behavior_witness :
    c1q3.indexMap 0 = some 0 ∧
    c1q3.pairs[0]? = some ⟨10, 0⟩ ∧
    c1q3.pairs[c1q3.pairs.length - 1]? = some ⟨8, 2⟩ ∧
    c1q3.Remove 0 = ((removeSwapState c1q3 0 ⟨10, 0⟩ ⟨8, 2⟩).bubbleUpIndex 0, none) :=
  ⟨by decide, by decide, by decide,
    ((C4_remove_behavior c1q3 0 0 (by decide)).2 ⟨10, 0⟩ ⟨8, 2⟩ (by decide)
      (by decide) (by decide)).1 (by decide)⟩

/-- C5: after any finite sequence of the four operations on a freshly
constructed queue, with every `Insert` performed on a value not already
present, the index is exactly consistent with storage: every occupied
position's value maps back to that position, and every mapped value is
stored at its mapped position (no stale, no missing entries). -/
theorem C5_index_consistency {T : Type} [DecidableEq T] (d capacity : Int)
    (ops : List (Op T))
    (hpre : insertPreOK (NewPriorityQueue T d capacity) ops = true) :
    IndexInv (runOps (NewPriorityQueue T d capacity) ops) := by
  refine PriorityQueue.runOps_indexInv ops _
    (le_trans (by omega) (PriorityQueue.NewPriorityQueue_sizeD T d capacity)) ⟨?_, ?_⟩ hpre
  · intro j pj hj
    rw [show (NewPriorityQueue T d capacity).pairs = [] from rfl] at hj
    cases hj
  · intro v j hm
    cases hm

/-- C5 (witness): the index stays consistent across a concrete sequence
mixing all four operations. -/
theorem C5_index_consistency_witness :
    insertPreOK (NewPriorityQueue Nat 2 0)
        [Op.insert 0 10, Op.insert 1 5, Op.update 1 20, Op.remove 0,
          Op.insert 2 7, Op.top] = true ∧
    IndexInv (runOps (NewPriorityQueue Nat 2 0)
        [Op.insert 0 10, Op.insert 1 5, Op.update 1 20, Op.remove 0,
          Op.insert 2 7, Op.top]) :=
  ⟨by decide, C5_index_consistency 2 0 _ (by decide)⟩

/-- C6 (counterexample): a state reachable by duplicate-free public
operations (three inserts and an `Update` that raises a priority, which
the code fails to restructure for) drains as `10, 100, 8` — not
non-increasing. -/
theorem C6_counterexample :
    insertPreOK (NewPriorityQueue Nat 2 0) c6ops = true ∧
    topSequence c6state = [⟨10, 0⟩, ⟨100, 1⟩, ⟨8, 2⟩] ∧
    ¬ List.Chain' (fun a b => b.priority ≤ a.priority) (topSequence c6state) := by
  refine ⟨by decide, by decide, ?_⟩
  have heq : topSequence c6state = [⟨10, 0⟩, ⟨100, 1⟩, ⟨8, 2⟩] := by decide
  rw [heq]
  intro hc
  rw [List.chain'_cons] at hc
  exact absurd hc.1 (by decide)

/-- C6 (amended): from every queue state that satisfies the max-heap
invariant (with a positive branching factor, as every constructed queue
has), calling `Top` repeatedly until the queue is empty returns the
entries in non-increasing priority order. -/
theorem C6_drain_sorted {T : Type} [DecidableEq T] (q : PriorityQueue T)
    (hd : 1 ≤ q.sizeD) (hh : IsHeap q.sizeD q.pairs) :
    List.Chain' (fun a b => b.priority ≤ a.priority) (topSequence q) :=
  (PriorityQueue.drainAux_sorted q.pairs.length q rfl hd hh).1

/-- C6 (witness): the amended theorem applied to the heap reached by the
scenario inserts. -/
theorem C6_drain_sorted_witness :
    1 ≤ c1q3.sizeD ∧ IsHeap c1q3.sizeD c1q3.pairs ∧
    List.Chain' (fun a b => b.priority ≤ a.priority) (topSequence c1q3) :=
  ⟨by decide, by decide, C6_drain_sorted c1q3 (by decide) (by decide)⟩

/-- C7: `Peek` and `Top` fail (with `queueIsEmpty`, the only error they
return) exactly when the queue holds no entries, and a failing `Top`
leaves the state unchanged; `Remove` and `Update` fail (with
`elementNotFound`, the only error they return) exactly when the value is
absent from the index, and on failure the state is unchanged.  All four
are returned as error values of the embedding's result types. -/
theorem C7_error_conditions {T : Type} [DecidableEq T] (q : PriorityQueue T)
    (v : T) (p : Int) :
    (q.Peek = .error .queueIsEmpty ↔ q.pairs = []) ∧
    (∀ e, q.Peek = .error e → e = .queueIsEmpty) ∧
    (q.Top.2 = .error .queueIsEmpty ↔ q.pairs = []) ∧
    (∀ e, q.Top.2 = .error e → e = .queueIsEmpty) ∧
    (q.pairs = [] → q.Top.1 = q) ∧
    ((q.Remove v).2 = some .elementNotFound ↔ q.indexMap v = none) ∧
    (∀ e, (q.Remove v).2 = some e → e = .elementNotFound) ∧
    (q.indexMap v = none → (q.Remove v).1 = q) ∧
    ((q.Update v p).2 = some .elementNotFound ↔ q.indexMap v = none) ∧
    (∀ e, (q.Update v p).2 = some e → e = .elementNotFound) ∧
    (q.indexMap v = none → (q.Update v p).1 = q) := by
  have hpeek1 : q.pairs = [] → q.Peek = .error .queueIsEmpty := by
    intro he
    unfold PriorityQueue.Peek
    rw [List.head?_eq_none_iff.mpr he]
  have hpeek2 : q.pairs ≠ [] → ∀ e, q.Peek ≠ .error e := by
    intro hne e
    unfold PriorityQueue.Peek
    cases hh : q.pairs.head? with
    | none => exact absurd (List.head?_eq_none_iff.mp hh) hne
    | some a =>
      intro hc
      cases hc
  have htop1 : q.pairs = [] → q.Top = (q, .error .queueIsEmpty) := by
    intro he
    unfold PriorityQueue.Top
    rw [List.getLast?_eq_none_iff.mpr he]
  have htop2 : q.pairs ≠ [] → ∀ e, q.Top.2 ≠ .error e := by
    intro hne e
    unfold PriorityQueue.Top
    cases hg : q.pairs.getLast? with
    | none => exact absurd (List.getLast?_eq_none_iff.mp hg) hne
    | some a =>
      dsimp only
      cases hh : q.pairs.dropLast.head? <;> dsimp only <;> intro hc <;> cases hc
  have hrem1 : q.indexMap v = none → q.Remove v = (q, some .elementNotFound) := by
    intro hm
    unfold PriorityQueue.Remove
    rw [hm]
  have hrem2 : ∀ index, q.indexMap v = some index → (q.Remove v).2 = none := by
    intro index hm
    unfold PriorityQueue.Remove
    rw [hm]
    dsimp only
    split
    · rfl
    · repeat' split
      all_goals rfl
  have hupd1 : q.indexMap v = none → q.Update v p = (q, some .elementNotFound) := by
    intro hm
    unfold PriorityQueue.Update
    rw [hm]
  have hupd2 : ∀ index, q.indexMap v = some index → (q.Update v p).2 = none := by
    intro index hm
    unfold PriorityQueue.Update
    rw [hm]
    dsimp only
    repeat' split
    all_goals rfl
  refine ⟨?_, ?_, ?_, ?_, ?_, ?_, ?_, ?_, ?_, ?_, ?_⟩
  · constructor
    · intro hc
      by_contra hne
      exact hpeek2 hne _ hc
    · exact hpeek1
  · intro e he
    by_cases hne : q.pairs = []
    · rw [hpeek1 hne] at he
      injection he with he
      exact he.symm
    · exact absurd he (hpeek2 hne e)
  · constructor
    · intro hc
      by_contra hne
      exact htop2 hne _ hc
    · intro he
      rw [htop1 he]
  · intro e he
    by_cases hne : q.pairs = []
    · rw [htop1 hne] at he
      injection he with he
      exact he.symm
    · exact absurd he (htop2 hne e)
  · intro he
    rw [htop1 he]
  · constructor
    · intro hc
      cases hm : q.indexMap v with
      | none => rfl
      | some index =>
        rw [hrem2 index hm] at hc
        cases hc
    · intro hm
      rw [hrem1 hm]
  · intro e he
    cases hm : q.indexMap v with
    | none =>
      rw [hrem1 hm] at he
      injection he with he
      exact he.symm
    | some index =>
      rw [hrem2 index hm] at he
      cases he
  · intro hm
    rw [hrem1 hm]
  · constructor
    · intro hc
      cases hm : q.indexMap v with
      | none => rfl
      | some index =>
        rw [hupd2 index hm] at hc
        cases hc
    · intro hm
      rw [hupd1 hm]
  · intro e he
    cases hm : q.indexMap v with
    | none =>
      rw [hupd1 hm] at he
      injection he with he
      exact he.symm
    | some index =>
      rw [hupd2 index hm] at he
      cases he
  · intro hm
    rw [hupd1 hm]

/-- C7 (witness): on the empty queue `Peek` fails with `queueIsEmpty`,
and `Remove` of an absent value fails with `elementNotFound` leaving the
state unchanged. -/
theorem C7_error_conditions_witness :
    (NewPriorityQueue Nat 2 0).Peek = .error .queueIsEmpty ∧
    ((NewPriorityQueue Nat 2 0).Remove 0).2 = some .elementNotFound :=
  ⟨((C7_error_conditions (NewPriorityQueue Nat 2 0) 0 1).1).mpr rfl,
    ((C7_error_conditions (NewPriorityQueue Nat 2 0) 0
      1).2.2.2.2.2.1).mpr rfl⟩

/-- C8: `highestPriorityChild` returns (when children exist) the entry
of maximal priority in the child window `[i*d+1, i*d+d]`, breaking ties
toward the lowest index (every strictly earlier child is strictly
smaller); it returns the sentinel exactly when the child range is empty;
and one push-down step swaps downward precisely when that child strictly
exceeds the current entry, stopping otherwise or when the position is at
or past the first leaf. -/
theorem C8_child_selection {T : Type} [DecidableEq T] (q : PriorityQueue T)
    (i : Nat) (hd : 1 ≤ q.sizeD) :
    (q.highestPriorityChild i = none ↔ q.pairs.length ≤ i * q.sizeD + 1) ∧
    (∀ best c, q.highestPriorityChild i = some (best, c) →
      q.pairs[c]? = some best ∧
      i * q.sizeD + 1 ≤ c ∧ c ≤ i * q.sizeD + q.sizeD ∧ c < q.pairs.length ∧
      (∀ j pj, i * q.sizeD + 1 ≤ j → j ≤ i * q.sizeD + q.sizeD →
        q.pairs[j]? = some pj → pj.priority ≤ best.priority) ∧
      (∀ j pj, i * q.sizeD + 1 ≤ j → j < c →
        q.pairs[j]? = some pj → pj.priority < best.priority)) ∧
    (∀ fuel best c child cur, ((i : Int) < q.firstLeafIndex) →
      q.highestPriorityChild i = some (best, c) →
      q.pairs[c]? = some child → q.pairs[i]? = some cur →
      ((cur.priority < child.priority →
          PriorityQueue.pushDownAux (fuel + 1) q i =
            PriorityQueue.pushDownAux fuel
              { q with
                pairs := (q.pairs.set i child).set c cur,
                indexMap := mapInsert (mapInsert q.indexMap child.value i)
                  cur.value c } c) ∧
        (¬ cur.priority < child.priority →
          PriorityQueue.pushDownAux (fuel + 1) q i = q))) ∧
    (∀ fuel, ¬ ((i : Int) < q.firstLeafIndex) →
      PriorityQueue.pushDownAux (fuel + 1) q i = q) := by
  refine ⟨PriorityQueue.highestPriorityChild_eq_none_iff q i, ?_, ?_, ?_⟩
  · intro best c h
    exact PriorityQueue.highestPriorityChild_spec q i hd h
  · intro fuel best c child cur hcond hpc hchild hcur
    constructor
    · intro hcmp
      simp only [PriorityQueue.pushDownAux]
      rw [if_pos hcond, hpc]
      dsimp only
      rw [hchild, hcur]
      dsimp only
      rw [if_pos hcmp]
    · intro hcmp
      simp only [PriorityQueue.pushDownAux]
      rw [if_pos hcond, hpc]
      dsimp only
      rw [hchild, hcur]
      dsimp only
      rw [if_neg hcmp]
  · intro fuel hcond
    simp only [PriorityQueue.pushDownAux]
    rw [if_neg hcond]

/-- C8 (witness): in the scenario queue the root's highest-priority
child is `(8, C)` at position 2. -/
theorem C8_child_selection_witness :
    c1q3.highestPriorityChild 0 = some (⟨8, 2⟩, 2) ∧
    c1q3.pairs[2]? = some ⟨8, 2⟩ :=
  ⟨by decide,
    (((C8_child_selection c1q3 0 (by decide)).2.1) ⟨8, 2⟩ 2 (by decide)).1⟩

/-- C9: inserting a value that is already present does not fail or
merge: storage grows by exactly one entry, the new storage is a
permutation of the old storage plus the new pair (so the prior entry for
the value is still stored), and the index points the value at the final
position of the newly inserted pair after its bubble-up. -/
theorem C9_duplicate_insert {T : Type} [DecidableEq T] (q : PriorityQueue T)
    (v : T) (p : Int) (i0 : Nat) (hdup : q.indexMap v = some i0) :
    (q.Insert v p).pairs.length = q.pairs.length + 1 ∧
    List.Perm (q.Insert v p).pairs (q.pairs ++ [⟨p, v⟩]) ∧
    ∃ j, j < (q.Insert v p).pairs.length ∧
      (q.Insert v p).indexMap v = some j ∧
      (q.Insert v p).pairs[j]? = some ⟨p, v⟩ := by
  refine ⟨PriorityQueue.Insert_pairs_length q v p, ?_, ?_⟩
  · unfold PriorityQueue.Insert PriorityQueue.bubbleUp PriorityQueue.bubbleUpIndex
    dsimp only
    have hidx : (q.pairs ++ [(⟨p, v⟩ : Pair T)]).length - 1 = q.pairs.length := by simp
    rw [hidx, List.getElem?_concat_length]
    dsimp only
    have hperm := PriorityQueue.bubbleUpAux_perm q.sizeD q.pairs.length
      (q.pairs ++ [(⟨p, v⟩ : Pair T)]) (mapInsert q.indexMap v q.pairs.length)
      q.pairs.length ⟨p, v⟩ (le_refl _) (by simp)
    have hset : (q.pairs ++ [(⟨p, v⟩ : Pair T)]).set q.pairs.length ⟨p, v⟩
        = q.pairs ++ [(⟨p, v⟩ : Pair T)] := by
      rw [List.set_append_right _ _ (le_refl _)]
      simp
    rw [hset] at hperm
    exact hperm
  · unfold PriorityQueue.Insert PriorityQueue.bubbleUp PriorityQueue.bubbleUpIndex
    dsimp only
    have hidx : (q.pairs ++ [(⟨p, v⟩ : Pair T)]).length - 1 = q.pairs.length := by simp
    rw [hidx, List.getElem?_concat_length]
    dsimp only
    obtain ⟨j, hji, hmap, hget⟩ := PriorityQueue.bubbleUpAux_final q.sizeD
      q.pairs.length (q.pairs ++ [(⟨p, v⟩ : Pair T)])
      (mapInsert q.indexMap v q.pairs.length) q.pairs.length ⟨p, v⟩
      (le_refl _) (by simp)
    refine ⟨j, ?_, hmap, hget⟩
    rw [PriorityQueue.bubbleUpAux_fst_length]
    simp
    omega

/-- C9 (witness): inserting a second entry for value `1` into the
scenario queue. -/
theorem C9_duplicate_insert_witness :
    c1q3.indexMap 1 = some 1 ∧
    ((c1q3.Insert 1 3).pairs.length = c1q3.pairs.length + 1 ∧
      List.Perm (c1q3.Insert 1 3).pairs (c1q3.pairs ++ [⟨3, 1⟩]) ∧
      ∃ j, j < (c1q3.Insert 1 3).pairs.length ∧
        (c1q3.Insert 1 3).indexMap 1 = some j ∧
        (c1q3.Insert 1 3).pairs[j]? = some ⟨3, 1⟩) :=
  ⟨by decide, C9_duplicate_insert c1q3 1 3 1 (by decide)⟩

/-- C10: the rebalancing loops terminate on every input: the bubble-up
position strictly decreases (the parent index is strictly smaller), the
push-down position strictly increases (the selected child index is
strictly larger), push-down exits at or past the first leaf index, and
both loops compute the same result under any sufficiently large
iteration budget — in particular the budgets the wrappers pass
(`index` and `length + 1`) suffice, so all public operations are total. -/
theorem C10_termination {T : Type} [DecidableEq T] (q : PriorityQueue T)
    (hd : 1 ≤ q.sizeD) :
    (∀ i, 0 < i → q.getParentIndex i < i) ∧
    (∀ i best c, q.highestPriorityChild i = some (best, c) → i < c) ∧
    (∀ (i fuel : Nat), ¬ ((i : Int) < q.firstLeafIndex) →
      PriorityQueue.pushDownAux (fuel + 1) q i = q) ∧
    (∀ (i k1 k2 : Nat), q.pairs.length - i ≤ k1 → q.pairs.length - i ≤ k2 →
      PriorityQueue.pushDownAux k1 q i = PriorityQueue.pushDownAux k2 q i) ∧
    (∀ (current : Pair T) k1 k2 (pairs : List (Pair T)) (imap : T → Option Nat)
        (index : Nat), index ≤ k1 → index ≤ k2 →
      PriorityQueue.bubbleUpAux q.sizeD current k1 pairs imap index
        = PriorityQueue.bubbleUpAux q.sizeD current k2 pairs imap index) := by
  refine ⟨?_, ?_, ?_, ?_, ?_⟩
  · intro i hi
    exact parent_div_lt_self hi
  · intro i best c h
    exact PriorityQueue.highestPriorityChild_gt q i hd h
  · intro i fuel hcond
    simp only [PriorityQueue.pushDownAux]
    rw [if_neg hcond]
  · intro i k1 k2 h1 h2
    exact PriorityQueue.pushDownAux_congr_fuel k1 k2 q i hd h1 h2
  · intro current k1 k2 pairs imap index h1 h2
    exact PriorityQueue.bubbleUpAux_congr_fuel q.sizeD current k1 k2 pairs imap index h1 h2

/-- C10 (witness): the parent of position 5 at branching factor 2 is
position 2. -/
theorem C10_termination_witness :
    (NewPriorityQueue Nat 2 0).getParentIndex 5 < 5 :=
  (C10_termination (NewPriorityQueue Nat 2 0) (by decide)).1 5 (by decide)

section Sanity

example :
    ((NewPriorityQueue Nat 2 0).Insert 0 10).pairs = [⟨10, 0⟩] := by decide

example :
    (((NewPriorityQueue Nat 2 0).Insert 0 10 |>.Insert 1 5 |>.Insert 2 8).Peek)
      = .ok ⟨10, 0⟩ := by decide

end Sanity
